import Mathlib

/-!
Verification of the `tube_planning` flow engine
(`tube_planning/networks/network.py`, `tube_planning/flow.py`).

Shallow embedding conventions:
* Python floats are modelled as `ℚ` (all arithmetic in the algorithm is
  addition, subtraction, `min` and comparisons, which are exact).
* An `n × n` numpy array is modelled as a total function `ℕ → ℕ → ℚ`
  together with the size `n`; entries outside the `n × n` block are kept
  at `0` by the constructors (the representation of the finite array).
* `TubePlanningError` is a single Python exception class; the distinct
  raise sites carry distinct message strings, so errors are modelled as
  the message `String`.  `raise TubePlanningError()` (no message, in the
  free function `edmonds_karp`) is modelled as the empty string.
* In-place mutation of `Flow.flow_matrix` by `send_flow_along` is
  modelled by returning the updated matrix; when the method raises in
  the middle of the path, the partially updated matrix is returned
  inside the error (matching the mutated state of the Python object).
-/

namespace TubePlanning

/-- A dense matrix of rationals: the model of a 2-d numpy array of
floats.  The array size is carried separately. -/
def Mat : Type := ℕ → ℕ → ℚ

/-- Build a `Mat` from a row-major list of rows (a matrix literal);
entries outside the lists are `0`. -/
def listToMat (rows : List (List ℚ)) : Mat :=
  fun i j => (((rows.get? i).map (fun r => (r.get? j).getD 0)).getD 0)

/-- `Flow._EPS = 1e-9`, the absolute tolerance used by the flow checks. -/
def Flow.EPS : ℚ := 1 / 1000000000

/-- The default relative tolerance `rtol = 1e-5` of `np.allclose` /
`np.isclose` (the code never overrides it). -/
def NP.RTOL : ℚ := 1 / 100000

/-- The default absolute tolerance `atol = 1e-8` of `np.allclose`,
used by `Network.__eq__` (which does not override `atol`). -/
def NP.ATOLDEF : ℚ := 1 / 100000000

/-- `tuple(dict.fromkeys(xs))`: deduplicate keeping the first
occurrence of each element, preserving order. -/
def pyDedup (xs : List ℤ) : List ℤ :=
  xs.foldl (fun acc x => if x ∈ acc then acc else acc ++ [x]) []

/-- `dict.get`-style first-match lookup in an association list
(models a Python dict, whose keys are unique). -/
def alistLookup (xs : List (ℤ × ℚ)) (k : ℤ) : ℚ :=
  match xs with
  | [] => 0
  | (a, b) :: t => if a = k then b else alistLookup t k

/-- The `Network` class: a square matrix of non-negative capacities.
`adjacency_matrix` holds `0` outside the `n_nodes × n_nodes` block and
on the diagonal (the constructor zeroes the diagonal). -/
structure Network where
  n_nodes : ℕ
  adjacency_matrix : Mat

/-- `Network.__init__` for the `adj_mat` form (the only form the
claims exercise): reject any negative entry, then zero the diagonal.
Squareness is carried by the explicit size `n`; entries outside the
block are normalised to `0` (array representation). -/
def networkOfMatrix (n : ℕ) (M : Mat) : Except String Network :=
  if ∀ i < n, ∀ j < n, 0 ≤ M i j then
    .ok ⟨n, fun i j => if i < n ∧ j < n ∧ i ≠ j then M i j else 0⟩
  else
    .error "Adjacency matrix must be non-negative."

/-- The well-formedness facts every constructed `Network` enjoys:
entries outside the block and on the diagonal are `0`, and every entry
is non-negative. -/
def NetworkWF (net : Network) : Prop :=
  (∀ i j, ¬(i < net.n_nodes ∧ j < net.n_nodes ∧ i ≠ j) →
      net.adjacency_matrix i j = 0) ∧
  (∀ i j, 0 ≤ net.adjacency_matrix i j)

theorem networkOfMatrix_wf {n : ℕ} {M : Mat} {net : Network}
    (h : networkOfMatrix n M = .ok net) : net.n_nodes = n ∧ NetworkWF net := by
  unfold networkOfMatrix at h
  split at h
  case isTrue hpos =>
    cases h
    refine ⟨rfl, ?_, ?_⟩
    · intro i j hij
      simp only []
      rw [if_neg hij]
    · intro i j
      simp only []
      split
      case isTrue hc => exact hpos i hc.1 j hc.2.1
      case isFalse => exact le_refl 0
  case isFalse => cases h

/-- One pass of the `for current in queue` loop of `Network.bfs`.
The Python loop iterates over the queue while appending to it; this is
the equivalent worklist recursion.  Within one dequeued `current`, the
unvisited positive-capacity neighbours `nbs` are pairwise distinct
indices, so marking them one by one (as the Python inner loop does) is
the same as marking them all at once.  The fuel only guards Lean
termination: each step removes one element from the worklist and every
enqueued node is freshly visited, so `pending.length + #unvisited`
drops by exactly one per step and the initial fuel `n + 1` is never
exhausted (`bfsList_fuel_invariant` below makes this precise). -/
def bfsList (adj : Mat) (n : ℕ) :
    ℕ → List ℕ → (ℕ → Bool) → (ℕ → ℤ) → (ℕ → ℤ)
  | 0, _, _, trace => trace
  | _ + 1, [], _, trace => trace
  | fuel + 1, current :: rest, visited, trace =>
      let nbs := (List.range n).filter
        (fun nb => decide (0 < adj current nb) && !visited nb)
      bfsList adj n fuel (rest ++ nbs)
        (fun x => if x ∈ nbs then true else visited x)
        (fun x => if x ∈ nbs then (current : ℤ) else trace x)

/-- The trace computed by `Network.bfs` from an in-bounds root:
`visited` starts true exactly at `root`, `path_trace` starts at `-1`
everywhere except `path_trace[root] = root`, queue starts `[root]`. -/
def bfsTraceRaw (adj : Mat) (n root : ℕ) : ℕ → ℤ :=
  bfsList adj n (n + 1) [root]
    (fun x => decide (x = root))
    (fun x => if x = root then (root : ℤ) else -1)

/-- `Network.bfs(root)`: bounds-check the root, then run the search. -/
def Network.bfs (net : Network) (root : ℤ) : Except String (ℕ → ℤ) :=
  if root < 0 ∨ (net.n_nodes : ℤ) ≤ root then
    .error "Root node out of bounds."
  else
    .ok (bfsTraceRaw net.adjacency_matrix net.n_nodes root.toNat)

/-- The predecessor walk of `Network.path_from_bfs`:
`while path_trace[cur] != cur: cur = path_trace[cur]; path.append(cur)`.
The fuel guards Lean termination only; on every trace produced by
`bfsTraceRaw` the walk strictly descends the BFS discovery order, so it
stops within `n` steps and fuel `n + 1` is never exhausted (the Python
loop would diverge on a cyclic trace, which `bfs` never produces).
Intermediate trace values on such traces are non-negative, so `Int.toNat`
is exact. -/
def pathWalk (trace : ℕ → ℤ) : ℕ → ℕ → List ℕ → List ℕ
  | 0, _, path => path
  | fuel + 1, cur, path =>
      if trace cur = (cur : ℤ) then path
      else pathWalk trace fuel (trace cur).toNat (path ++ [(trace cur).toNat])

/-- `Network.path_from_bfs(path_trace, dest)` (a static method); `n` is
`len(path_trace)`.  Checks the destination, then walks the predecessor
pointers and reverses the accumulated path. -/
def Network.path_from_bfs (n : ℕ) (trace : ℕ → ℤ) (dest : ℤ) :
    Except String (List ℕ) :=
  if dest < 0 ∨ (n : ℤ) ≤ dest then
    .error "Destination node out of bounds."
  else if trace dest.toNat < 0 then
    .error "Destination is unreachable from root."
  else
    .ok (pathWalk trace (n + 1) dest.toNat [dest.toNat]).reverse

/-- The `Flow` class: a flow matrix over `n` nodes with the (already
deduplicated, as `__init__` stores them) source and sink index tuples. -/
structure Flow where
  n : ℕ
  flow_matrix : Mat
  sources : List ℤ
  sinks : List ℤ

/-- `Flow.flow_out[i]`: row sum (total outgoing flow of node `i`). -/
def Flow.rowSum (M : Mat) (n i : ℕ) : ℚ :=
  ((List.range n).map (fun j => M i j)).sum

/-- `Flow.flow_in[j]`: column sum (total incoming flow of node `j`). -/
def Flow.colSum (M : Mat) (n j : ℕ) : ℚ :=
  ((List.range n).map (fun i => M i j)).sum

/-- `Flow.net_flow[i] = flow_in[i] - flow_out[i]`. -/
def Flow.netAt (M : Mat) (n i : ℕ) : ℚ :=
  Flow.colSum M n i - Flow.rowSum M n i

/-- `Flow._conserves_flow`:
`np.allclose(F, -F.T, atol=1e-9)` (note the numpy default
`rtol = 1e-5` stays in force, so the skew check is
`|F[i][j] + F[j][i]| <= 1e-9 + 1e-5 * |F[j][i]|`), then
`np.allclose(diag(F), 0, atol=1e-9)` (`rtol` multiplies `|0|`, so this
is absolute), then `np.isclose(net, 0, atol=1e-9)` at every node not in
`sources ∪ sinks` (again absolute). -/
def Flow.conservesFlow (n : ℕ) (M : Mat) (sources sinks : List ℤ) : Prop :=
  (∀ i < n, ∀ j < n,
      |M i j + M j i| ≤ Flow.EPS + NP.RTOL * |M j i|) ∧
  (∀ i < n, |M i i| ≤ Flow.EPS) ∧
  (∀ i < n, (i : ℤ) ∉ sources → (i : ℤ) ∉ sinks →
      |Flow.netAt M n i| ≤ Flow.EPS)

instance (n : ℕ) (M : Mat) (sources sinks : List ℤ) :
    Decidable (Flow.conservesFlow n M sources sinks) := by
  unfold Flow.conservesFlow
  infer_instance

/-- `Flow.__init__(flow_matrix, sources, sinks)`: squareness is carried
by `n`; the terminal lists are cast to int and deduplicated preserving
first occurrence, bounds-checked, then `_conserves_flow` must hold.
The matrix is stored unchanged. -/
def flowMk (n : ℕ) (M : Mat) (sources sinks : List ℤ) :
    Except String Flow :=
  if ∃ x ∈ pyDedup sources ++ pyDedup sinks, x < 0 ∨ (n : ℤ) ≤ x then
    .error "Source or sink index out of bounds."
  else if Flow.conservesFlow n M (pyDedup sources) (pyDedup sinks) then
    .ok ⟨n, M, pyDedup sources, pyDedup sinks⟩
  else
    .error "Flow does not conserve at intermediate nodes."

/-- `Flow.zero_flow(n_nodes, sources, sinks)`. -/
def Flow.zero_flow (n : ℕ) (sources sinks : List ℤ) :
    Except String Flow :=
  flowMk n (fun _ _ => 0) sources sinks

/-- `Flow.value`: total outflow of the sources if any, else total
inflow of the sinks, else `0`.  The terminal indices were
bounds-checked at construction, so `Int.toNat` is exact. -/
def Flow.value (f : Flow) : ℚ :=
  if f.sources ≠ [] then
    (f.sources.map (fun s => Flow.rowSum f.flow_matrix f.n s.toNat)).sum
  else if f.sinks ≠ [] then
    (f.sinks.map (fun t => Flow.colSum f.flow_matrix f.n t.toNat)).sum
  else 0

/-- The two sequential in-place updates of one path edge in
`send_flow_along`: `F[u][v] += amount; F[v][u] -= amount`.  Written
additively, which agrees with the sequential updates pointwise (for
`u = v` the two updates cancel, as in the source). -/
def bump (M : Mat) (u v : ℕ) (amount : ℚ) : Mat :=
  fun x y =>
    M x y + (if x = u ∧ y = v then amount else 0)
          - (if x = v ∧ y = u then amount else 0)

/-- The edge loop of `send_flow_along` over the consecutive pairs
`zip(path[:-1], path[1:])`: per pair, bounds-check both endpoints
(raising mid-loop leaves the updates already applied — the error
carries the matrix in its mutated state), then apply the update. -/
def sendAux (sz : ℕ) (amount : ℚ) :
    List (ℤ × ℤ) → Mat → Except (String × Mat) Mat
  | [], M => .ok M
  | (u, v) :: t, M =>
      if u < 0 ∨ v < 0 ∨ (sz : ℤ) ≤ u ∨ (sz : ℤ) ≤ v then
        .error ("Path contains invalid node index.", M)
      else
        sendAux sz amount t (bump M u.toNat v.toNat amount)

/-- `Flow.send_flow_along(path, amount)`.  On success the result is the
flow object with its matrix updated; on failure the error carries the
message together with the matrix state at the moment of the raise. -/
def Flow.send_flow_along (f : Flow) (path : List ℤ) (amount : ℚ) :
    Except (String × Mat) Flow :=
  if path.length < 2 then
    .error ("Path must contain at least two nodes.", f.flow_matrix)
  else
    match sendAux f.n amount (path.zip path.tail) f.flow_matrix with
    | .error e => .error e
    | .ok M2 => .ok ⟨f.n, M2, f.sources, f.sinks⟩

/-- `Network.capacity_constraint(flow)`: shape match, skew-symmetry
(`np.allclose(F, -F.T, atol=1e-9)`, default `rtol` in force), then
`np.any(|F| - A > 1e-9)` must be false.  Returns `True` on success. -/
def Network.capacity_constraint (net : Network) (f : Flow) :
    Except String Bool :=
  if f.n ≠ net.n_nodes then
    .error "Flow matrix and adjacency matrix shapes differ."
  else if ¬ (∀ i < net.n_nodes, ∀ j < net.n_nodes,
      |f.flow_matrix i j + f.flow_matrix j i| ≤
        Flow.EPS + NP.RTOL * |f.flow_matrix j i|) then
    .error "Flow matrix must be skew-symmetric."
  else if ∃ i < net.n_nodes, ∃ j < net.n_nodes,
      Flow.EPS < |f.flow_matrix i j| - net.adjacency_matrix i j then
    .error "Flow exceeds edge capacity."
  else
    .ok true

/-- The main loop of `Network.edmonds_karp`, one fuel unit per
`for _ in range(maxiter)` iteration.  Exhausting the fuel without the
`path_trace[sink] < 0` break is the `not converged` raise. -/
def ekLoop (A : Mat) (n : ℕ) (source sink : ℤ) :
    ℕ → Flow → Except String Flow
  | 0, _ => .error "Maximum iterations reached without convergence."
  | fuel + 1, f =>
      match networkOfMatrix n (fun i j => A i j - f.flow_matrix i j) with
      | .error e => .error e
      | .ok residual =>
        match residual.bfs source with
        | .error e => .error e
        | .ok path_trace =>
          if path_trace sink.toNat < 0 then .ok f
          else
            match Network.path_from_bfs n path_trace sink with
            | .error e => .error e
            | .ok path =>
              match path.zip path.tail with
              | [] => .error "ValueError: min() arg is an empty sequence"
              | pr :: prs =>
                match f.send_flow_along (path.map (fun x : ℕ => (x : ℤ)))
                    (prs.foldl
                      (fun m e => min m (residual.adjacency_matrix e.1 e.2))
                      (residual.adjacency_matrix pr.1 pr.2)) with
                | .error e => .error e.1
                | .ok f2 => ekLoop A n source sink fuel f2

/-- `Network.edmonds_karp(source, sink, maxiter=1000)`: validate the
terminals, start from the zero flow tagged `{source}` / `{sink}`, then
run the augmenting loop.  (The Python default `maxiter=1000` is passed
explicitly by callers of this model.) -/
def Network.edmonds_karp (net : Network) (source sink : ℤ) (maxiter : ℕ) :
    Except String Flow :=
  if source = sink then .error "Source and sink must differ."
  else if source < 0 ∨ sink < 0 ∨ (net.n_nodes : ℤ) ≤ source ∨
      (net.n_nodes : ℤ) ≤ sink then
    .error "Source or sink out of bounds."
  else
    match Flow.zero_flow net.n_nodes [source] [sink] with
    | .error e => .error e
    | .ok f => ekLoop net.adjacency_matrix net.n_nodes source sink maxiter f

/-- The loop of the module-level free function `edmonds_karp`; its body
is the same as the method loop, but exhausting the budget raises the
bare `TubePlanningError()` (empty message). -/
def ekLoopFree (A : Mat) (n : ℕ) (s t : ℤ) :
    ℕ → Flow → Except String Flow
  | 0, _ => .error ""
  | fuel + 1, f =>
      match networkOfMatrix n (fun i j => A i j - f.flow_matrix i j) with
      | .error e => .error e
      | .ok rg =>
        match rg.bfs s with
        | .error e => .error e
        | .ok pt =>
          if pt t.toNat < 0 then .ok f
          else
            match Network.path_from_bfs n pt t with
            | .error e => .error e
            | .ok p =>
              match p.zip p.tail with
              | [] => .error "ValueError: min() arg is an empty sequence"
              | pr :: prs =>
                match f.send_flow_along (p.map (fun x : ℕ => (x : ℤ)))
                    (prs.foldl
                      (fun m e => min m (rg.adjacency_matrix e.1 e.2))
                      (rg.adjacency_matrix pr.1 pr.2)) with
                | .error e => .error e.1
                | .ok f2 => ekLoopFree A n s t fuel f2

/-- The module-level free function `edmonds_karp(G, s, t, mi=1000)`:
no terminal validation, otherwise the same algorithm as the method. -/
def edmonds_karp (G : Network) (s t : ℤ) (mi : ℕ) : Except String Flow :=
  match Flow.zero_flow G.n_nodes [s] [t] with
  | .error e => .error e
  | .ok f => ekLoopFree G.adjacency_matrix G.n_nodes s t mi f

/-- The `larger` network of `Network.__add__` (ties go to `other`,
matching the `if other.n_nodes < self.n_nodes` branch). -/
def combineLarger (self other : Network) : Network :=
  if other.n_nodes < self.n_nodes then self else other

/-- The `smaller` network of `Network.__add__`. -/
def combineSmaller (self other : Network) : Network :=
  if other.n_nodes < self.n_nodes then other else self

/-- `Network.__add__` (the `combine` operation of the spec): pick the
larger network, zero-pad the smaller matrix to its size, add
element-wise, and construct a new `Network` from the sum. -/
def Network.combine (self other : Network) : Except String Network :=
  networkOfMatrix (combineLarger self other).n_nodes (fun i j =>
    (combineLarger self other).adjacency_matrix i j +
      (if i < (combineSmaller self other).n_nodes ∧
          j < (combineSmaller self other).n_nodes then
        (combineSmaller self other).adjacency_matrix i j
       else 0))

/-- `Network.__eq__`: `np.allclose(self.adjacency_matrix,
other.adjacency_matrix)` with numpy defaults `rtol=1e-5, atol=1e-8`,
modelled over the common shape (the claims compare equal-sized
networks; numpy would raise on incompatible shapes). -/
def Network.allcloseEq (a b : Network) : Prop :=
  ∀ i < b.n_nodes, ∀ j < b.n_nodes,
    |a.adjacency_matrix i j - b.adjacency_matrix i j| ≤
      NP.ATOLDEF + NP.RTOL * |b.adjacency_matrix i j|

/-- `float(np.sum(self.adjacency_matrix))`: the sum of all entries of
the capacity matrix. -/
def totalCapacity (net : Network) : ℚ :=
  ((List.range net.n_nodes).map
    (fun i => Flow.rowSum net.adjacency_matrix net.n_nodes i)).sum

/-- The `(n+2) × (n+2)` expanded matrix built by `maximum_flow`:
original matrix in the top-left block, super-source `n` and super-sink
`n+1` connected bidirectionally to every source resp. sink with the
uniform capacity `cap`; every other entry keeps its `np.zeros` value.
The conditions are mutually exclusive because `sources` and `sinks`
are disjoint at this point. -/
def expandedMatrixMF (net : Network) (sources sinks : List ℤ) (cap : ℚ) :
    Mat :=
  fun i j =>
    if i < net.n_nodes ∧ j < net.n_nodes then net.adjacency_matrix i j
    else if i = net.n_nodes ∧ j < net.n_nodes ∧ (j : ℤ) ∈ sources then cap
    else if j = net.n_nodes ∧ i < net.n_nodes ∧ (i : ℤ) ∈ sources then cap
    else if j = net.n_nodes + 1 ∧ i < net.n_nodes ∧ (i : ℤ) ∈ sinks then cap
    else if i = net.n_nodes + 1 ∧ j < net.n_nodes ∧ (j : ℤ) ∈ sinks then cap
    else 0

/-- `Network.maximum_flow(sources, sinks, maxiter=1000)`: deduplicate,
validate disjoint and non-empty, build the expansion with uniform
super-edge capacity `total_capacity` (or `1.0` when that sum is not
positive), run Edmonds-Karp between the synthetic terminals, restrict
the flow matrix to the original block and re-tag it. -/
def Network.maximum_flow (net : Network) (sources sinks : List ℤ)
    (maxiter : ℕ) : Except String Flow :=
  if ∃ s ∈ pyDedup sources, s ∈ pyDedup sinks then
    .error "Sources and sinks must be disjoint."
  else if pyDedup sources = [] ∨ pyDedup sinks = [] then
    .error "Provide at least one source and one sink."
  else if ∃ s ∈ pyDedup sources, s < 0 ∨ (net.n_nodes : ℤ) ≤ s then
    .error "Source index out of bounds."
  else if ∃ t ∈ pyDedup sinks, t < 0 ∨ (net.n_nodes : ℤ) ≤ t then
    .error "Sink index out of bounds."
  else
    match networkOfMatrix (net.n_nodes + 2)
        (expandedMatrixMF net (pyDedup sources) (pyDedup sinks)
          (if totalCapacity net ≤ 0 then 1 else totalCapacity net)) with
    | .error e => .error e
    | .ok expanded_net =>
      match expanded_net.edmonds_karp (net.n_nodes : ℤ)
          ((net.n_nodes : ℤ) + 1) maxiter with
      | .error e => .error e
      | .ok expanded_flow =>
        flowMk net.n_nodes
          (fun i j => if i < net.n_nodes ∧ j < net.n_nodes then
             expanded_flow.flow_matrix i j else 0)
          (pyDedup sources) (pyDedup sinks)

/-- The expanded matrix built by `sufficient_flow`: like
`expandedMatrixMF`, but each super-edge carries the per-node supply or
demand value from the caller-supplied mapping (modelled as an
association list with the unique keys of the Python dict). -/
def expandedMatrixSF (net : Network) (supply demand : List (ℤ × ℚ)) :
    Mat :=
  fun i j =>
    if i < net.n_nodes ∧ j < net.n_nodes then net.adjacency_matrix i j
    else if i = net.n_nodes ∧ j < net.n_nodes ∧
        (j : ℤ) ∈ supply.map Prod.fst then alistLookup supply j
    else if j = net.n_nodes ∧ i < net.n_nodes ∧
        (i : ℤ) ∈ supply.map Prod.fst then alistLookup supply i
    else if j = net.n_nodes + 1 ∧ i < net.n_nodes ∧
        (i : ℤ) ∈ demand.map Prod.fst then alistLookup demand i
    else if i = net.n_nodes + 1 ∧ j < net.n_nodes ∧
        (j : ℤ) ∈ demand.map Prod.fst then alistLookup demand j
    else 0

/-- `Network.sufficient_flow(sources, sinks, maxiter=1000)` where
`sources` and `sinks` are node-to-supply / node-to-demand mappings:
validate non-empty and non-negative, fail fast when total supply plus
tolerance is below total demand, build the bounded expansion, run
Edmonds-Karp, and reject a converged flow whose value is still short
of the total demand. -/
def Network.sufficient_flow (net : Network) (sources sinks : List (ℤ × ℚ))
    (maxiter : ℕ) : Except String Flow :=
  if sources = [] ∨ sinks = [] then
    .error "Sources and sinks must be provided."
  else if (∃ p ∈ sources, p.2 < 0) ∨ (∃ p ∈ sinks, p.2 < 0) then
    .error "Supplies and demands must be non-negative."
  else if (sources.map Prod.snd).sum + Flow.EPS < (sinks.map Prod.snd).sum then
    .error "Insufficient total supply to meet demand."
  else if ∃ p ∈ sources, p.1 < 0 ∨ (net.n_nodes : ℤ) ≤ p.1 then
    .error "Source index out of bounds."
  else if ∃ p ∈ sinks, p.1 < 0 ∨ (net.n_nodes : ℤ) ≤ p.1 then
    .error "Sink index out of bounds."
  else
    match networkOfMatrix (net.n_nodes + 2)
        (expandedMatrixSF net sources sinks) with
    | .error e => .error e
    | .ok expanded_net =>
      match expanded_net.edmonds_karp (net.n_nodes : ℤ)
          ((net.n_nodes : ℤ) + 1) maxiter with
      | .error e => .error e
      | .ok expanded_flow =>
        if expanded_flow.value + Flow.EPS < (sinks.map Prod.snd).sum then
          .error "Could not satisfy all demand."
        else
          flowMk net.n_nodes
            (fun i j => if i < net.n_nodes ∧ j < net.n_nodes then
               expanded_flow.flow_matrix i j else 0)
            (sources.map Prod.fst) (sinks.map Prod.fst)

/-! ### Helper lemmas: BFS discovery order -/

/-- Index of the first occurrence of `x` in `L` (`L.length` if absent):
the discovery rank used to order the BFS tree. -/
def idxL : List ℕ → ℕ → ℕ
  | [], _ => 0
  | a :: l, x => if a = x then 0 else idxL l x + 1

theorem idxL_lt_length {L : List ℕ} {x : ℕ} (h : x ∈ L) :
    idxL L x < L.length := by
  induction L with
  | nil => cases h
  | cons a l ih =>
    by_cases hax : a = x
    · simp [idxL, hax]
    · rcases List.mem_cons.mp h with h1 | h2
      · exact absurd h1.symm hax
      · simpa [idxL, hax] using ih h2

theorem idxL_append_left {L L2 : List ℕ} {x : ℕ} (h : x ∈ L) :
    idxL (L ++ L2) x = idxL L x := by
  induction L with
  | nil => cases h
  | cons a l ih =>
    by_cases hax : a = x
    · simp [idxL, hax]
    · rcases List.mem_cons.mp h with h1 | h2
      · exact absurd h1.symm hax
      · simp [idxL, hax, ih h2]

theorem idxL_append_right {L L2 : List ℕ} {x : ℕ} (h : x ∉ L) :
    idxL (L ++ L2) x = L.length + idxL L2 x := by
  induction L with
  | nil => simp [idxL]
  | cons a l ih =>
    have hax : a ≠ x := fun hh => h (hh ▸ List.mem_cons_self a l)
    have hxl : x ∉ l := fun hh => h (List.mem_cons_of_mem a hh)
    simp [idxL, hax, ih hxl]
    omega

/-- The facts established about a trace returned by `bfsTraceRaw`,
relative to the list `L` of visited nodes in discovery order. -/
structure BfsTraceSpec (adj : Mat) (n root : ℕ) (trace : ℕ → ℤ)
    (L : List ℕ) : Prop where
  nodup : L.Nodup
  bounded : ∀ x ∈ L, x < n
  root_mem : root ∈ L
  root_fix : trace root = root
  pred : ∀ x ∈ L, x ≠ root → 0 ≤ trace x ∧ (trace x).toNat ∈ L ∧
      idxL L (trace x).toNat < idxL L x ∧ 0 < adj (trace x).toNat x
  unvisited : ∀ x, x ∉ L → trace x = -1

theorem BfsTraceSpec.length_le {adj : Mat} {n root : ℕ} {trace : ℕ → ℤ}
    {L : List ℕ} (h : BfsTraceSpec adj n root trace L) : L.length ≤ n := by
  have hcard : L.toFinset.card = L.length := List.toFinset_card_of_nodup h.nodup
  have hsub : L.toFinset ⊆ Finset.range n := by
    intro x hx
    exact Finset.mem_range.mpr (h.bounded x (List.mem_toFinset.mp hx))
  calc L.length = L.toFinset.card := hcard.symm
    _ ≤ (Finset.range n).card := Finset.card_le_card hsub
    _ = n := Finset.card_range n

theorem bfsList_spec (adj : Mat) (n root : ℕ) :
    ∀ (fuel : ℕ) (pending : List ℕ) (visited : ℕ → Bool) (trace : ℕ → ℤ)
      (L : List ℕ),
      BfsTraceSpec adj n root trace L →
      (∀ x, visited x = true ↔ x ∈ L) →
      (∀ x ∈ pending, x ∈ L) →
      ∃ L2, BfsTraceSpec adj n root
        (bfsList adj n fuel pending visited trace) L2 := by
  intro fuel
  induction fuel with
  | zero => intro pending visited trace L hs _ _; exact ⟨L, hs⟩
  | succ fuel ih =>
    intro pending visited trace L hs hvis hpend
    match pending with
    | [] => exact ⟨L, hs⟩
    | current :: rest =>
      rw [bfsList]
      have hcur : current ∈ L := hpend current (List.mem_cons_self _ _)
      set nbs := (List.range n).filter
        (fun nb => decide (0 < adj current nb) && !visited nb) with hnbs
      have hnb : ∀ nb ∈ nbs, nb < n ∧ 0 < adj current nb ∧ nb ∉ L := by
        intro nb hmem
        rw [hnbs, List.mem_filter] at hmem
        obtain ⟨hr, hp⟩ := hmem
        rw [Bool.and_eq_true, Bool.not_eq_true', decide_eq_true_eq] at hp
        refine ⟨List.mem_range.mp hr, hp.1, ?_⟩
        intro hmemL
        have hvt := (hvis nb).mpr hmemL
        rw [hp.2] at hvt
        simp at hvt
      have hnbsnodup : nbs.Nodup := (List.nodup_range n).filter _
      have hdisj : List.Disjoint L nbs := by
        intro x hxL hxnbs
        exact (hnb x hxnbs).2.2 hxL
      have hnodup2 : (L ++ nbs).Nodup :=
        List.Nodup.append hs.nodup hnbsnodup hdisj
      have hrootnbs : root ∉ nbs := fun hh => (hnb root hh).2.2 hs.root_mem
      refine ih (rest ++ nbs)
        (fun x => if x ∈ nbs then true else visited x)
        (fun x => if x ∈ nbs then (current : ℤ) else trace x)
        (L ++ nbs) ?_ ?_ ?_
      · constructor
        · exact hnodup2
        · intro x hx
          rcases List.mem_append.mp hx with h1 | h2
          · exact hs.bounded x h1
          · exact (hnb x h2).1
        · exact List.mem_append.mpr (Or.inl hs.root_mem)
        · rw [if_neg hrootnbs]; exact hs.root_fix
        · intro x hx hxroot
          rcases List.mem_append.mp hx with h1 | h2
          · have hxnbs : x ∉ nbs := fun hh => hdisj h1 hh
            rw [if_neg hxnbs]
            obtain ⟨ht0, htmem, htidx, htadj⟩ := hs.pred x h1 hxroot
            refine ⟨ht0, List.mem_append.mpr (Or.inl htmem), ?_, htadj⟩
            rw [idxL_append_left htmem, idxL_append_left h1]
            exact htidx
          · rw [if_pos h2]
            refine ⟨Int.natCast_nonneg current, ?_, ?_, ?_⟩
            · rw [Int.toNat_natCast]
              exact List.mem_append.mpr (Or.inl hcur)
            · rw [Int.toNat_natCast, idxL_append_left hcur,
                idxL_append_right ((hnb x h2).2.2)]
              have := idxL_lt_length hcur
              omega
            · rw [Int.toNat_natCast]
              exact (hnb x h2).2.1
        · intro x hx
          have hxnbs : x ∉ nbs := fun hh => hx (List.mem_append.mpr (Or.inr hh))
          have hxL : x ∉ L := fun hh => hx (List.mem_append.mpr (Or.inl hh))
          rw [if_neg hxnbs]
          exact hs.unvisited x hxL
      · intro x
        by_cases hx : x ∈ nbs
        · simp [hx]
        · simp only [if_neg hx, List.mem_append, hvis x]
          exact ⟨Or.inl, fun h => h.elim id (fun hh => absurd hh hx)⟩
      · intro x hx
        rcases List.mem_append.mp hx with h1 | h2
        · exact List.mem_append.mpr
            (Or.inl (hpend x (List.mem_cons_of_mem _ h1)))
        · exact List.mem_append.mpr (Or.inr h2)

theorem bfsTraceRaw_spec (adj : Mat) (n root : ℕ) (hroot : root < n) :
    ∃ L, BfsTraceSpec adj n root (bfsTraceRaw adj n root) L := by
  apply bfsList_spec adj n root (n + 1) [root]
    (fun x => decide (x = root))
    (fun x => if x = root then (root : ℤ) else -1) [root]
  · constructor
    · exact List.nodup_singleton root
    · intro x hx
      rw [List.mem_singleton] at hx
      rw [hx]
      exact hroot
    · exact List.mem_singleton_self root
    · rw [if_pos rfl]
    · intro x hx hxroot
      exact absurd (List.mem_singleton.mp hx) hxroot
    · intro x hx
      have hxr : x ≠ root :=
        fun h => hx (by rw [h]; exact List.mem_singleton_self root)
      rw [if_neg hxr]
  · intro x
    rw [List.mem_singleton, decide_eq_true_eq]
  · intro x hx
    exact hx

/-! ### Helper lemmas: the predecessor walk -/

theorem pathWalk_acc (trace : ℕ → ℤ) :
    ∀ (fuel : ℕ) (cur : ℕ) (acc : List ℕ),
      pathWalk trace fuel cur acc = acc ++ pathWalk trace fuel cur [] := by
  intro fuel
  induction fuel with
  | zero => intro cur acc; simp [pathWalk]
  | succ fuel ih =>
    intro cur acc
    rw [pathWalk, pathWalk]
    by_cases h : trace cur = (cur : ℤ)
    · simp [h]
    · rw [if_neg h, if_neg h, ih _ (acc ++ [(trace cur).toNat]),
        ih _ ([] ++ [(trace cur).toNat])]
      simp

/-- The root-to-`x` chain recovered by reversing the predecessor walk
from `x`: starts at the BFS root, ends at `x`, follows strictly
increasing discovery ranks along positive-capacity edges, and stays
inside the visited list `L`. -/
structure ChainSpec (adj : Mat) (L : List ℕ) (root x : ℕ) (c : List ℕ) :
    Prop where
  head_root : c.head? = some root
  last_x : c.getLast? = some x
  chain : List.Chain' (fun u v => idxL L u < idxL L v ∧ 0 < adj u v) c
  mem : ∀ y ∈ c, y ∈ L

theorem pathWalk_chain {adj : Mat} {n root : ℕ} {trace : ℕ → ℤ}
    {L : List ℕ} (hs : BfsTraceSpec adj n root trace L) :
    ∀ (k x : ℕ), x ∈ L → idxL L x = k → ∀ (fuel : ℕ), k < fuel →
      ChainSpec adj L root x ((pathWalk trace fuel x []).reverse ++ [x]) := by
  intro k
  induction k using Nat.strong_induction_on with
  | _ k ih =>
    intro x hx hk fuel hfuel
    obtain ⟨m, rfl⟩ : ∃ m, fuel = m + 1 := ⟨fuel - 1, by omega⟩
    rw [pathWalk]
    by_cases htx : trace x = (x : ℤ)
    · have hxroot : x = root := by
        by_contra hne
        obtain ⟨_, _, hidx, _⟩ := hs.pred x hx hne
        rw [htx, Int.toNat_natCast] at hidx
        exact lt_irrefl _ hidx
      rw [if_pos htx]
      exact ⟨by rw [hxroot]; rfl, rfl, List.chain'_singleton x,
        fun y hy => (List.mem_singleton.mp hy) ▸ hx⟩
    · rw [if_neg htx]
      have hxroot : x ≠ root := by
        intro hh
        rw [hh] at htx
        exact htx (by rw [hs.root_fix])
      obtain ⟨ht0, htm, hti, hta⟩ := hs.pred x hx hxroot
      set px := (trace x).toNat with hpx
      have hklt : idxL L px < k := hk ▸ hti
      have hcw : pathWalk trace m px ([] ++ [px]) =
          [px] ++ pathWalk trace m px [] := by
        rw [pathWalk_acc]; simp
      rw [hcw]
      have hrec := ih (idxL L px) hklt px htm rfl m (by omega)
      set ws := pathWalk trace m px [] with hws
      have hrw : (([px] ++ ws).reverse ++ [x]) =
          ((ws.reverse ++ [px]) ++ [x]) := by simp
      rw [hrw]
      set cp := ws.reverse ++ [px] with hcp
      have hcpne : cp ≠ [] := by
        intro hh
        have hl := hrec.last_x
        rw [hh] at hl
        cases hl
      refine ⟨?_, ?_, ?_, ?_⟩
      · rw [List.head?_append_of_ne_nil cp hcpne]
        exact hrec.head_root
      · rw [List.getLast?_append_of_ne_nil cp (show ([x] : List ℕ) ≠ [] by simp)]
        rfl
      · refine List.Chain'.append hrec.chain (List.chain'_singleton x) ?_
        intro u hu y hy
        have hupx : u = px := by
          have hl := hrec.last_x
          rw [hl] at hu
          exact (Option.mem_some_iff.mp hu).symm
        have hyx : y = x := by
          rw [List.head?_cons] at hy
          exact (Option.mem_some_iff.mp hy).symm
        rw [hupx, hyx]
        exact ⟨hk ▸ hti, hta⟩
      · intro y hy
        rcases List.mem_append.mp hy with h1 | h2
        · exact hrec.mem y h1
        · exact (List.mem_singleton.mp h2) ▸ hx

/-- Specification of `Network.path_from_bfs` on a genuine BFS trace:
for every visited destination it succeeds and returns the root-to-dest
chain. -/
theorem path_from_bfs_spec {adj : Mat} {n root : ℕ} {trace : ℕ → ℤ}
    {L : List ℕ} (hs : BfsTraceSpec adj n root trace L)
    (dest : ℕ) (hdest : dest ∈ L) :
    ∃ c, Network.path_from_bfs n trace (dest : ℤ) = .ok c ∧
      ChainSpec adj L root dest c := by
  have hdn : dest < n := hs.bounded dest hdest
  have htr0 : 0 ≤ trace dest := by
    by_cases hdr : dest = root
    · rw [hdr, hs.root_fix]; exact Int.natCast_nonneg root
    · exact (hs.pred dest hdest hdr).1
  have hidx : idxL L dest < n + 1 := by
    have h1 := idxL_lt_length hdest
    have h2 := hs.length_le
    omega
  have hchain := pathWalk_chain hs (idxL L dest) dest hdest rfl (n + 1) hidx
  refine ⟨(pathWalk trace (n + 1) dest []).reverse ++ [dest], ?_, hchain⟩
  unfold Network.path_from_bfs
  rw [if_neg (by push_neg; constructor <;> omega), Int.toNat_natCast,
    if_neg (by omega)]
  rw [pathWalk_acc trace (n + 1) dest [dest]]
  simp

/-- The chain follows strictly increasing discovery ranks, so it has no
duplicate nodes. -/
theorem ChainSpec.pairwise_idx {adj : Mat} {L : List ℕ} {root x : ℕ}
    {c : List ℕ} (h : ChainSpec adj L root x c) :
    List.Pairwise (fun u v => idxL L u < idxL L v) c := by
  haveI : IsTrans ℕ (fun u v => idxL L u < idxL L v) :=
    ⟨fun _ _ _ => Nat.lt_trans⟩
  exact List.chain'_iff_pairwise.mp (h.chain.imp (fun a b hr => hr.1))

theorem ChainSpec.nodup {adj : Mat} {L : List ℕ} {root x : ℕ}
    {c : List ℕ} (h : ChainSpec adj L root x c) : c.Nodup := by
  refine h.pairwise_idx.imp ?_
  intro a b hab he
  rw [he] at hab
  exact lt_irrefl _ hab

theorem ChainSpec.length_ge_two {adj : Mat} {L : List ℕ} {root x : ℕ}
    {c : List ℕ} (h : ChainSpec adj L root x c) (hne : x ≠ root) :
    2 ≤ c.length := by
  match c, h.head_root, h.last_x with
  | [], hh, _ => cases hh
  | [a], hh, hl =>
    rw [List.head?_cons, Option.some_inj] at hh
    rw [List.getLast?_singleton, Option.some_inj] at hl
    exact absurd (hl.symm.trans hh) hne
  | a :: b :: t, _, _ => simp

/-! ### Helper lemmas: consecutive pairs of a path -/

theorem chain'_zip_pairs {R : ℕ → ℕ → Prop} :
    ∀ {p : List ℕ}, List.Chain' R p →
      ∀ pr ∈ p.zip p.tail, R pr.1 pr.2 := by
  intro p
  induction p with
  | nil => intro _ pr hpr; cases hpr
  | cons a l ih =>
    intro hch pr hpr
    cases l with
    | nil => cases hpr
    | cons b t =>
      rw [List.tail_cons, List.zip_cons_cons] at hpr
      rcases List.mem_cons.mp hpr with rfl | hmem
      · exact (List.chain'_cons.mp hch).1
      · have hih := ih (List.chain'_cons.mp hch).2
        rw [List.tail_cons] at hih
        exact hih pr hmem

theorem map_fst_zip_tail :
    ∀ (p : List ℕ), (p.zip p.tail).map Prod.fst = p.dropLast := by
  intro p
  induction p with
  | nil => rfl
  | cons a l ih =>
    cases l with
    | nil => rfl
    | cons b t =>
      rw [List.tail_cons, List.zip_cons_cons, List.map_cons]
      rw [List.tail_cons] at ih
      rw [ih]
      rfl

theorem pairs_nodup {L : List ℕ} {p : List ℕ}
    (hp : List.Pairwise (fun u v => idxL L u < idxL L v) p) :
    (p.zip p.tail).Nodup := by
  have hnd : p.Nodup := by
    refine hp.imp ?_
    intro a b hab he
    rw [he] at hab
    exact lt_irrefl _ hab
  have h1 : ((p.zip p.tail).map Prod.fst).Nodup := by
    rw [map_fst_zip_tail]
    exact hnd.sublist (List.dropLast_sublist p)
  exact h1.of_map

theorem mem_pair_of_mem {l : List ℤ} {x : ℤ} (hx : x ∈ l)
    (hlen : 2 ≤ l.length) :
    ∃ pr ∈ l.zip l.tail, pr.1 = x ∨ pr.2 = x := by
  induction l with
  | nil => cases hx
  | cons a t ih =>
    cases t with
    | nil => simp at hlen
    | cons b t2 =>
      rw [List.tail_cons, List.zip_cons_cons]
      rcases List.mem_cons.mp hx with rfl | hxt
      · exact ⟨(x, b), List.mem_cons_self _ _, Or.inl rfl⟩
      · rcases List.mem_cons.mp hxt with rfl | hxt2
        · exact ⟨(a, x), List.mem_cons_self _ _, Or.inr rfl⟩
        · cases t2 with
          | nil => cases hxt2
          | cons c t3 =>
            obtain ⟨pr, hpr, hor⟩ := ih hxt (by simp)
            rw [List.tail_cons] at hpr
            exact ⟨pr, List.mem_cons_of_mem _ hpr, hor⟩

/-! ### Helper lemmas: folded minimum -/

theorem foldl_min_le_init {α : Type} (g : α → ℚ) :
    ∀ (l : List α) (x : ℚ), l.foldl (fun m e => min m (g e)) x ≤ x := by
  intro l
  induction l with
  | nil => intro x; exact le_refl x
  | cons a t ih =>
    intro x
    exact le_trans (ih (min x (g a))) (min_le_left _ _)

theorem foldl_min_le_mem {α : Type} (g : α → ℚ) :
    ∀ (l : List α) (x : ℚ) (y : α), y ∈ l →
      l.foldl (fun m e => min m (g e)) x ≤ g y := by
  intro l
  induction l with
  | nil => intro x y hy; cases hy
  | cons a t ih =>
    intro x y hy
    rcases List.mem_cons.mp hy with rfl | hyt
    · exact le_trans (foldl_min_le_init g t (min x (g y))) (min_le_right _ _)
    · exact ih (min x (g a)) y hyt

theorem foldl_min_pos {α : Type} (g : α → ℚ) :
    ∀ (l : List α) (x : ℚ), 0 < x → (∀ y ∈ l, 0 < g y) →
      0 < l.foldl (fun m e => min m (g e)) x := by
  intro l
  induction l with
  | nil => intro x hx _; exact hx
  | cons a t ih =>
    intro x hx hall
    exact ih (min x (g a)) (lt_min hx (hall a (List.mem_cons_self _ _)))
      (fun y hy => hall y (List.mem_cons_of_mem _ hy))

/-! ### Helper lemmas: effect of send_flow_along -/

/-- The matrix after applying all the per-edge updates of
`send_flow_along` (proof-side shorthand for the fold performed by
`sendAux` when no bounds check fires). -/
def applyPairs (a : ℚ) (prs : List (ℤ × ℤ)) (M : Mat) : Mat :=
  prs.foldl (fun Mm pr => bump Mm pr.1.toNat pr.2.toNat a) M

theorem sendAux_ok (sz : ℕ) (a : ℚ) :
    ∀ (prs : List (ℤ × ℤ)) (M : Mat),
      (∀ pr ∈ prs, 0 ≤ pr.1 ∧ pr.1 < (sz : ℤ) ∧ 0 ≤ pr.2 ∧ pr.2 < (sz : ℤ)) →
      sendAux sz a prs M = .ok (applyPairs a prs M) := by
  intro prs
  induction prs with
  | nil => intro M _; rfl
  | cons pr t ih =>
    intro M hb
    obtain ⟨u, v⟩ := pr
    obtain ⟨h1, h2, h3, h4⟩ := hb (u, v) (List.mem_cons_self _ _)
    rw [sendAux, if_neg (by push_neg; exact ⟨h1, h3, by omega, by omega⟩)]
    exact ih _ (fun q hq => hb q (List.mem_cons_of_mem _ hq))

theorem sendAux_err (sz : ℕ) (a : ℚ) :
    ∀ (prs : List (ℤ × ℤ)) (M : Mat),
      (∃ pr ∈ prs, pr.1 < 0 ∨ pr.2 < 0 ∨ (sz : ℤ) ≤ pr.1 ∨ (sz : ℤ) ≤ pr.2) →
      ∃ M2, sendAux sz a prs M =
        .error ("Path contains invalid node index.", M2) := by
  intro prs
  induction prs with
  | nil => intro M h; obtain ⟨pr, hpr, _⟩ := h; cases hpr
  | cons q t ih =>
    intro M hex
    obtain ⟨u, v⟩ := q
    by_cases hc : u < 0 ∨ v < 0 ∨ (sz : ℤ) ≤ u ∨ (sz : ℤ) ≤ v
    · exact ⟨M, by rw [sendAux, if_pos hc]⟩
    · rw [sendAux, if_neg hc]
      obtain ⟨pr, hpr, hviol⟩ := hex
      rcases List.mem_cons.mp hpr with rfl | hmem
      · exact absurd (by tauto) hc
      · exact ih _ ⟨pr, hmem, hviol⟩

theorem applyPairs_eval (a : ℚ) :
    ∀ (prs : List (ℤ × ℤ)) (M : Mat) (x y : ℕ),
      (∀ pr ∈ prs, 0 ≤ pr.1 ∧ 0 ≤ pr.2) →
      applyPairs a prs M x y =
        M x y + a * (prs.count ((x : ℤ), (y : ℤ)) : ℚ)
          - a * (prs.count ((y : ℤ), (x : ℤ)) : ℚ) := by
  intro prs
  induction prs with
  | nil => intro M x y _; simp [applyPairs]
  | cons q t ih =>
    intro M x y hb
    obtain ⟨u, v⟩ := q
    obtain ⟨hu, hv⟩ := hb (u, v) (List.mem_cons_self _ _)
    have hstep : applyPairs a ((u, v) :: t) M =
        applyPairs a t (bump M u.toNat v.toNat a) := rfl
    rw [hstep, ih _ x y (fun q hq => hb q (List.mem_cons_of_mem _ hq))]
    have hu2 : 0 ≤ u := hu
    have hv2 : 0 ≤ v := hv
    rw [bump]
    simp only [List.count_cons, beq_iff_eq]
    have i1 : (if x = u.toNat ∧ y = v.toNat then a else 0) =
        (if ((u, v) : ℤ × ℤ) = ((x : ℤ), (y : ℤ)) then a else 0) := by
      by_cases h : (u = (x : ℤ) ∧ v = (y : ℤ))
      · rw [if_pos (show x = u.toNat ∧ y = v.toNat by omega),
          if_pos (show ((u, v) : ℤ × ℤ) = ((x : ℤ), (y : ℤ)) by
            rw [Prod.mk.injEq]; exact h)]
      · rw [if_neg (fun hc => h (by omega)),
          if_neg (fun hc => h (by rw [Prod.mk.injEq] at hc; exact hc))]
    have i2 : (if x = v.toNat ∧ y = u.toNat then a else 0) =
        (if ((u, v) : ℤ × ℤ) = ((y : ℤ), (x : ℤ)) then a else 0) := by
      by_cases h : (u = (y : ℤ) ∧ v = (x : ℤ))
      · rw [if_pos (show x = v.toNat ∧ y = u.toNat by omega),
          if_pos (show ((u, v) : ℤ × ℤ) = ((y : ℤ), (x : ℤ)) by
            rw [Prod.mk.injEq]; exact h)]
      · rw [if_neg (fun hc => h (by omega)),
          if_neg (fun hc => h (by rw [Prod.mk.injEq] at hc; exact hc))]
    rw [i1, i2]
    split_ifs <;> push_cast <;> ring

theorem send_flow_along_ok (f : Flow) (path : List ℤ) (a : ℚ)
    (hlen : 2 ≤ path.length)
    (hb : ∀ x ∈ path, 0 ≤ x ∧ x < (f.n : ℤ)) :
    f.send_flow_along path a =
      .ok ⟨f.n, applyPairs a (path.zip path.tail) f.flow_matrix,
        f.sources, f.sinks⟩ := by
  unfold Flow.send_flow_along
  rw [if_neg (by omega)]
  rw [sendAux_ok f.n a (path.zip path.tail) f.flow_matrix ?_]
  intro pr hpr
  obtain ⟨hm1, hm2⟩ := List.of_mem_zip hpr
  obtain ⟨ha1, ha2⟩ := hb pr.1 hm1
  obtain ⟨hb1, hb2⟩ := hb pr.2 (List.tail_subset path hm2)
  exact ⟨ha1, ha2, hb1, hb2⟩

/-! ### Helper lemmas: the augmenting-loop invariant -/

/-- The matrix stored by the residual `Network` built in each
iteration from `A - F` (block-clamped, diagonal zeroed by the
constructor). -/
def residualMatrix (A : Mat) (n : ℕ) (F : Mat) : Mat :=
  fun i j => if i < n ∧ j < n ∧ i ≠ j then A i j - F i j else 0

theorem networkOfMatrix_residual (A : Mat) (n : ℕ) (F : Mat)
    (hle : ∀ i j, F i j ≤ A i j) :
    networkOfMatrix n (fun i j => A i j - F i j) =
      .ok ⟨n, residualMatrix A n F⟩ := by
  unfold networkOfMatrix
  rw [if_pos]
  · rfl
  · intro i _ j _
    exact sub_nonneg.mpr (hle i j)

/-- Invariant maintained by the Edmonds-Karp loop for the flow matrix:
zero outside the block and on the diagonal, skew-symmetric, and
entrywise below the capacity matrix (equivalently, the residual
`A - F` is entrywise non-negative). -/
structure LoopInv (A : Mat) (n : ℕ) (F : Mat) : Prop where
  outside : ∀ i j, ¬(i < n ∧ j < n) → F i j = 0
  diag : ∀ i, F i i = 0
  skew : ∀ i j, F j i = -F i j
  le_cap : ∀ i j, F i j ≤ A i j

theorem count_le_one_of_nodup {α : Type} [BEq α] [LawfulBEq α] :
    ∀ (l : List α) (a : α), l.Nodup → l.count a ≤ 1 := by
  intro l
  induction l with
  | nil => intro a _; simp
  | cons b t ih =>
    intro a hnd
    obtain ⟨hbt, hndt⟩ := List.nodup_cons.mp hnd
    rw [List.count_cons]
    have ht := ih a hndt
    by_cases hab : a = b
    · subst hab
      rw [List.count_eq_zero_of_not_mem hbt]
      simp
    · have hne : ¬ ((b == a) = true) := by
        simp only [beq_iff_eq]
        exact fun hh => hab hh.symm
      rw [if_neg hne]
      omega

theorem one_le_count_of_mem {α : Type} [BEq α] [LawfulBEq α] :
    ∀ (l : List α) (a : α), a ∈ l → 1 ≤ l.count a := by
  intro l
  induction l with
  | nil => intro a ha; cases ha
  | cons b t ih =>
    intro a hmem
    rw [List.count_cons]
    rcases List.mem_cons.mp hmem with rfl | hat
    · rw [if_pos (by simp)]
      omega
    · have ht := ih a hat
      split_ifs <;> omega

theorem count_map_pairs (P : List (ℕ × ℕ)) (x y : ℕ) :
    (P.map (fun q => ((q.1 : ℤ), (q.2 : ℤ)))).count ((x : ℤ), (y : ℤ)) =
      P.count (x, y) := by
  induction P with
  | nil => rfl
  | cons q t ih =>
    obtain ⟨q1, q2⟩ := q
    simp only [List.map_cons, List.count_cons, ih, beq_iff_eq,
      Prod.mk.injEq, Nat.cast_inj]

theorem mapcast_zip_tail : ∀ (c : List ℕ),
    (c.map (fun x : ℕ => (x : ℤ))).zip ((c.map (fun x : ℕ => (x : ℤ))).tail) =
      (c.zip c.tail).map (fun q => ((q.1 : ℤ), (q.2 : ℤ))) := by
  intro c
  induction c with
  | nil => rfl
  | cons a l ih =>
    cases l with
    | nil => rfl
    | cons b t =>
      simp only [List.map_cons, List.tail_cons, List.zip_cons_cons] at ih ⊢
      rw [ih]

theorem applyPairs_inv {A : Mat} {n : ℕ} {F : Mat} (hinv : LoopInv A n F)
    {root dest : ℕ} {L : List ℕ} {c : List ℕ}
    (hchain : ChainSpec (residualMatrix A n F) L root dest c)
    (hLb : ∀ x ∈ L, x < n)
    (a : ℚ) (ha0 : 0 < a)
    (hale : ∀ q ∈ c.zip c.tail, a ≤ residualMatrix A n F q.1 q.2) :
    LoopInv A n (applyPairs a
      ((c.map (fun x : ℕ => (x : ℤ))).zip ((c.map (fun x : ℕ => (x : ℤ))).tail))
      F) := by
  have hmapped : (c.map (fun x : ℕ => (x : ℤ))).zip
      ((c.map (fun x : ℕ => (x : ℤ))).tail) =
      (c.zip c.tail).map (fun q => ((q.1 : ℤ), (q.2 : ℤ))) :=
    mapcast_zip_tail c
  have heval : ∀ x y : ℕ,
      applyPairs a ((c.map (fun x : ℕ => (x : ℤ))).zip
        ((c.map (fun x : ℕ => (x : ℤ))).tail)) F x y =
      F x y + a * ((c.zip c.tail).count (x, y) : ℚ)
        - a * ((c.zip c.tail).count (y, x) : ℚ) := by
    intro x y
    rw [hmapped, applyPairs_eval a _ F x y ?_]
    · rw [count_map_pairs, count_map_pairs]
    · intro pr hpr
      obtain ⟨q, _, rfl⟩ := List.mem_map.mp hpr
      exact ⟨Int.natCast_nonneg q.1, Int.natCast_nonneg q.2⟩
  have hPn : (c.zip c.tail).Nodup := pairs_nodup hchain.pairwise_idx
  have hpairprop : ∀ q1 q2 : ℕ, (q1, q2) ∈ c.zip c.tail → q1 ∈ L ∧
      q2 ∈ L ∧ idxL L q1 < idxL L q2 ∧
      0 < residualMatrix A n F q1 q2 := by
    intro q1 q2 hq
    have h1 := chain'_zip_pairs hchain.chain (q1, q2) hq
    obtain ⟨hm1, hm2⟩ := List.of_mem_zip hq
    exact ⟨hchain.mem _ hm1, hchain.mem _ (List.tail_subset c hm2),
      h1.1, h1.2⟩
  have hnotboth : ∀ x y : ℕ, (x, y) ∈ c.zip c.tail →
      (y, x) ∉ c.zip c.tail := by
    intro x y hxy hyx
    have h1 := (hpairprop _ _ hxy).2.2.1
    have h2 := (hpairprop _ _ hyx).2.2.1
    omega
  have hcnt01 : ∀ x y : ℕ, ((c.zip c.tail).count (x, y) : ℚ) =
      if (x, y) ∈ c.zip c.tail then 1 else 0 := by
    intro x y
    by_cases h : (x, y) ∈ c.zip c.tail
    · rw [if_pos h]
      have hle1 := count_le_one_of_nodup _ (x, y) hPn
      have hpos := one_le_count_of_mem _ (x, y) h
      have hone : (c.zip c.tail).count (x, y) = 1 := Nat.le_antisymm hle1 hpos
      rw [hone]
      norm_num
    · rw [if_neg h, List.count_eq_zero_of_not_mem h]
      norm_num
  constructor
  · intro x y hxy
    rw [heval x y]
    have h1 : (x, y) ∉ c.zip c.tail := fun hc =>
      hxy ⟨hLb _ (hpairprop _ _ hc).1, hLb _ (hpairprop _ _ hc).2.1⟩
    have h2 : (y, x) ∉ c.zip c.tail := fun hc =>
      hxy ⟨hLb _ (hpairprop _ _ hc).2.1, hLb _ (hpairprop _ _ hc).1⟩
    rw [hcnt01, hcnt01, if_neg h1, if_neg h2, hinv.outside x y hxy]
    ring
  · intro x
    rw [heval x x, hinv.diag x]
    ring
  · intro x y
    rw [heval y x, heval x y, hinv.skew x y]
    ring
  · intro x y
    rw [heval x y]
    by_cases h1 : (x, y) ∈ c.zip c.tail
    · have h2 := hnotboth x y h1
      rw [hcnt01, hcnt01, if_pos h1, if_neg h2]
      have haug := hale (x, y) h1
      have hres : residualMatrix A n F x y = A x y - F x y := by
        obtain ⟨hm1, hm2, hidx, _⟩ := hpairprop _ _ h1
        have hxn := hLb _ hm1
        have hyn := hLb _ hm2
        have hne : x ≠ y := fun he => by
          rw [he] at hidx; exact lt_irrefl _ hidx
        unfold residualMatrix
        rw [if_pos ⟨hxn, hyn, hne⟩]
      rw [hres] at haug
      linarith
    · by_cases h2 : (y, x) ∈ c.zip c.tail
      · rw [hcnt01, hcnt01, if_neg h1, if_pos h2]
        have := hinv.le_cap x y
        linarith
      · rw [hcnt01, hcnt01, if_neg h1, if_neg h2]
        have := hinv.le_cap x y
        linarith

/-- The main correctness/termination dichotomy of the augmenting loop:
from any invariant-satisfying state it either returns a flow that
still satisfies the invariant and whose residual network leaves the
sink unreached by BFS, or it exhausts the budget and fails with the
convergence error.  No other outcome is possible. -/
theorem ekLoop_spec (A : Mat) (n : ℕ) (σ τ : ℕ)
    (hσ : σ < n) (hτ : τ < n) (hστ : σ ≠ τ) :
    ∀ (fuel : ℕ) (f : Flow), f.n = n → LoopInv A n f.flow_matrix →
      (∃ f2, ekLoop A n (σ : ℤ) (τ : ℤ) fuel f = .ok f2 ∧
        f2.n = n ∧ f2.sources = f.sources ∧ f2.sinks = f.sinks ∧
        LoopInv A n f2.flow_matrix ∧
        bfsTraceRaw (residualMatrix A n f2.flow_matrix) n σ τ < 0) ∨
      ekLoop A n (σ : ℤ) (τ : ℤ) fuel f =
        .error "Maximum iterations reached without convergence." := by
  intro fuel
  induction fuel with
  | zero => intro f hfn hinv; exact Or.inr rfl
  | succ fuel ih =>
    intro f hfn hinv
    rw [ekLoop]
    split
    next e heq =>
      rw [networkOfMatrix_residual A n f.flow_matrix hinv.le_cap] at heq
      cases heq
    next residual heq =>
      rw [networkOfMatrix_residual A n f.flow_matrix hinv.le_cap] at heq
      injection heq with heq
      subst heq
      have hbfs : Network.bfs ⟨n, residualMatrix A n f.flow_matrix⟩
          ((σ : ℤ)) = .ok (bfsTraceRaw (residualMatrix A n f.flow_matrix)
            n σ) := by
        unfold Network.bfs
        dsimp only
        rw [if_neg (by push_neg; constructor <;> omega)]
        rw [Int.toNat_natCast]
      split
      next e heq2 =>
        rw [hbfs] at heq2
        cases heq2
      next path_trace heq2 =>
        rw [hbfs] at heq2
        injection heq2 with heq2
        subst heq2
        rw [Int.toNat_natCast]
        obtain ⟨L, hsL⟩ :=
          bfsTraceRaw_spec (residualMatrix A n f.flow_matrix) n σ hσ
        split
        next hlt =>
          exact Or.inl ⟨f, rfl, hfn, rfl, rfl, hinv, hlt⟩
        next hge =>
          have hτL : τ ∈ L := by
            by_contra hq
            have hu := hsL.unvisited τ hq
            omega
          obtain ⟨c, hpath, hchain⟩ := path_from_bfs_spec hsL τ hτL
          split
          next e heq3 =>
            rw [hpath] at heq3
            cases heq3
          next p heq3 =>
            rw [hpath] at heq3
            injection heq3 with heq3
            subst heq3
            have hlen2 : 2 ≤ c.length := hchain.length_ge_two (by omega)
            split
            next heq4 =>
              exfalso
              have hzl : (c.zip c.tail).length = 0 := by rw [heq4]; rfl
              have hzl2 := congrArg List.length (map_fst_zip_tail c)
              rw [List.length_map, List.length_dropLast] at hzl2
              omega
            next pr prs heq4 =>
              have hposall : ∀ q ∈ c.zip c.tail,
                  0 < residualMatrix A n f.flow_matrix q.1 q.2 :=
                fun q hq => (chain'_zip_pairs hchain.chain q hq).2
              have hprmem : pr ∈ c.zip c.tail := by
                rw [heq4]; exact List.mem_cons_self _ _
              have haug0 : 0 < prs.foldl
                  (fun m e => min m
                    ((⟨n, residualMatrix A n f.flow_matrix⟩ :
                      Network).adjacency_matrix e.1 e.2))
                  ((⟨n, residualMatrix A n f.flow_matrix⟩ :
                    Network).adjacency_matrix pr.1 pr.2) := by
                refine foldl_min_pos _ prs _ (hposall pr hprmem) ?_
                intro q hq
                exact hposall q (by rw [heq4]; exact List.mem_cons_of_mem _ hq)
              have haugle : ∀ q ∈ c.zip c.tail,
                  prs.foldl (fun m e => min m
                    ((⟨n, residualMatrix A n f.flow_matrix⟩ :
                      Network).adjacency_matrix e.1 e.2))
                  ((⟨n, residualMatrix A n f.flow_matrix⟩ :
                    Network).adjacency_matrix pr.1 pr.2) ≤
                  residualMatrix A n f.flow_matrix q.1 q.2 := by
                intro q hq
                rw [heq4] at hq
                rcases List.mem_cons.mp hq with rfl | hq2
                · exact foldl_min_le_init _ prs _
                · exact foldl_min_le_mem _ prs _ q hq2
              have hsend := send_flow_along_ok f (c.map (fun x : ℕ => (x : ℤ)))
                (prs.foldl (fun m e => min m
                    ((⟨n, residualMatrix A n f.flow_matrix⟩ :
                      Network).adjacency_matrix e.1 e.2))
                  ((⟨n, residualMatrix A n f.flow_matrix⟩ :
                    Network).adjacency_matrix pr.1 pr.2))
                (by rw [List.length_map]; exact hlen2) ?_
              · split
                next e heq5 =>
                  rw [hsend] at heq5
                  cases heq5
                next f2 heq5 =>
                  rw [hsend] at heq5
                  injection heq5 with heq5
                  subst heq5
                  have hinv2 := applyPairs_inv hinv hchain hsL.bounded _
                    haug0 haugle
                  exact ih _ hfn hinv2
              · intro x hx
                obtain ⟨y, hy, rfl⟩ := List.mem_map.mp hx
                have hyn : y < n := hsL.bounded y (hchain.mem y hy)
                constructor
                · exact Int.natCast_nonneg y
                · rw [hfn]
                  omega

/-! ### Helper lemmas: the validated method entry point -/

theorem sum_map_zero : ∀ (l : List ℕ), (l.map (fun _ => (0 : ℚ))).sum = 0 := by
  intro l
  induction l with
  | nil => rfl
  | cons a t ih => simp [ih]

theorem pyDedup_singleton (x : ℤ) : pyDedup [x] = [x] := by
  simp [pyDedup]

/-- `Flow.zero_flow` succeeds for in-bounds distinct-or-not terminals
and stores the all-zero matrix unchanged. -/
theorem zero_flow_ok (n : ℕ) (s t : ℤ)
    (hs : 0 ≤ s ∧ s < (n : ℤ)) (ht : 0 ≤ t ∧ t < (n : ℤ)) :
    Flow.zero_flow n [s] [t] = .ok ⟨n, (fun _ _ => 0), [s], [t]⟩ := by
  have hno : ¬ ∃ x ∈ [s] ++ [t], x < 0 ∨ (n : ℤ) ≤ x := by
    rintro ⟨x, hx, hor⟩
    simp only [List.mem_append, List.mem_singleton] at hx
    rcases hx with rfl | rfl <;> omega
  have hcons : Flow.conservesFlow n (fun _ _ => 0) [s] [t] := by
    refine ⟨?_, ?_, ?_⟩
    · intro i _ j _
      simp [Flow.EPS, NP.RTOL]
    · intro i _
      simp [Flow.EPS]
    · intro i _ _ _
      simp [Flow.netAt, Flow.colSum, Flow.rowSum, Flow.EPS, sum_map_zero]
  unfold Flow.zero_flow flowMk
  rw [pyDedup_singleton, pyDedup_singleton, if_neg hno, if_pos hcons]

/-- The zero matrix satisfies the loop invariant for any non-negative
capacity matrix. -/
theorem zero_loopInv (A : Mat) (n : ℕ) (hAnn : ∀ i j, 0 ≤ A i j) :
    LoopInv A n (fun _ _ => 0) := by
  refine ⟨fun _ _ _ => rfl, fun _ => rfl, fun _ _ => by simp, ?_⟩
  intro i j
  exact hAnn i j

/-- Dichotomy of `Network.edmonds_karp` for a well-formed network and
valid distinct terminals: either it returns a flow satisfying the loop
invariant whose residual network leaves the sink BFS-unreachable, or
it fails with the convergence error; nothing else can happen. -/
theorem edmonds_karp_spec (net : Network) (hWF : NetworkWF net)
    (σ τ : ℕ) (hσ : σ < net.n_nodes) (hτ : τ < net.n_nodes)
    (hne : σ ≠ τ) (mi : ℕ) :
    (∃ f2, net.edmonds_karp (σ : ℤ) (τ : ℤ) mi = .ok f2 ∧
      f2.n = net.n_nodes ∧ f2.sources = [(σ : ℤ)] ∧
      f2.sinks = [(τ : ℤ)] ∧
      LoopInv net.adjacency_matrix net.n_nodes f2.flow_matrix ∧
      bfsTraceRaw (residualMatrix net.adjacency_matrix net.n_nodes
        f2.flow_matrix) net.n_nodes σ τ < 0) ∨
    net.edmonds_karp (σ : ℤ) (τ : ℤ) mi =
      .error "Maximum iterations reached without convergence." := by
  unfold Network.edmonds_karp
  rw [if_neg (show ¬((σ : ℤ) = (τ : ℤ)) by omega),
    if_neg (by push_neg; refine ⟨by omega, by omega, by omega, by omega⟩)]
  rw [zero_flow_ok net.n_nodes (σ : ℤ) (τ : ℤ) ⟨by omega, by omega⟩
    ⟨by omega, by omega⟩]
  split
  next e heq => cases heq
  next f0 heq =>
    injection heq with heq
    subst heq
    exact ekLoop_spec net.adjacency_matrix net.n_nodes σ τ hσ hτ hne mi
      ⟨net.n_nodes, (fun _ _ => 0), [(σ : ℤ)], [(τ : ℤ)]⟩ rfl
      (zero_loopInv net.adjacency_matrix net.n_nodes hWF.2)

/-! ### Helper lemmas: free function vs method -/

/-- The loop of the free `edmonds_karp` behaves exactly like the
method loop, except that budget exhaustion carries the bare error. -/
theorem ekLoopFree_eq (A : Mat) (n : ℕ) (s t : ℤ) :
    ∀ (fuel : ℕ) (f : Flow),
      ekLoopFree A n s t fuel f = ekLoop A n s t fuel f ∨
      (ekLoopFree A n s t fuel f = .error "" ∧
       ekLoop A n s t fuel f =
         .error "Maximum iterations reached without convergence.") := by
  intro fuel
  induction fuel with
  | zero => intro f; exact Or.inr ⟨rfl, rfl⟩
  | succ fuel ih =>
    intro f
    rw [ekLoop, ekLoopFree]
    split
    next e heq => exact Or.inl rfl
    next residual heq =>
      split
      next e heq2 => exact Or.inl rfl
      next path_trace heq2 =>
        split
        next hlt => exact Or.inl rfl
        next hge =>
          split
          next e heq3 => exact Or.inl rfl
          next p heq3 =>
            split
            next heq4 => exact Or.inl rfl
            next pr prs heq4 =>
              split
              next e heq5 => exact Or.inl rfl
              next f2 heq5 => exact ih f2

/-- The free function and the method agree whenever the terminals are
valid for the method (the free function performs no validation). -/
theorem free_edmonds_karp_eq (G : Network) (s t : ℤ) (mi : ℕ)
    (hs : 0 ≤ s ∧ s < (G.n_nodes : ℤ)) (ht : 0 ≤ t ∧ t < (G.n_nodes : ℤ))
    (hst : s ≠ t) :
    edmonds_karp G s t mi = G.edmonds_karp s t mi ∨
    (edmonds_karp G s t mi = .error "" ∧
     G.edmonds_karp s t mi =
       .error "Maximum iterations reached without convergence.") := by
  unfold edmonds_karp Network.edmonds_karp
  rw [if_neg hst,
    if_neg (by push_neg; exact ⟨hs.1, ht.1, hs.2, ht.2⟩)]
  rw [zero_flow_ok G.n_nodes s t hs ht]
  split
  next e heq => cases heq
  next f0 heq =>
    injection heq with heq
    subst heq
    exact ekLoopFree_eq G.adjacency_matrix G.n_nodes s t mi _

/-! ### Concrete fixtures used by the claims -/

/-- The capacity matrix `[[0, 3], [3, 0]]` of the edge case in the spec. -/
def mat3 : Mat := listToMat [[0, 3], [3, 0]]

/-- The `Network` the constructor produces from `mat3`. -/
def net3 : Network :=
  ⟨2, fun i j => if i < 2 ∧ j < 2 ∧ i ≠ j then mat3 i j else 0⟩

theorem net3_construction : networkOfMatrix 2 mat3 = .ok net3 := by rfl

theorem net3_wf : NetworkWF net3 := (networkOfMatrix_wf net3_construction).2

/-! ### The claims -/

/-- Claim C1: for the `Network` constructed from the matrix
`[[0, 3], [3, 0]]`, `edmonds_karp(0, 1)` succeeds and the returned
`Flow.value` is exactly `3`. -/
theorem claim_C1 :
    networkOfMatrix 2 mat3 = .ok net3 ∧
    (net3.edmonds_karp 0 1 1000).map Flow.value = .ok 3 := by
  constructor
  · rfl
  · with_unfolding_all rfl

/-- Claim C2 (amended): `Flow` construction succeeds (storing the
matrix unchanged and the deduplicated terminals) exactly when all
terminal indices are in bounds and `_conserves_flow` holds; the latter
checks skew-symmetry within `1e-9` plus the numpy default relative
tolerance `1e-5 * |F[j][i]|` (not within the absolute `1e-9` alone),
and the zero-diagonal and non-terminal conservation bounds within the
absolute `1e-9`. -/
theorem claim_C2 (n : ℕ) (M : Mat) (ss tt : List ℤ) :
    (∃ f, flowMk n M ss tt = .ok f ∧ f.flow_matrix = M ∧
      f.sources = pyDedup ss ∧ f.sinks = pyDedup tt) ↔
    ((∀ x ∈ pyDedup ss ++ pyDedup tt, 0 ≤ x ∧ x < (n : ℤ)) ∧
     Flow.conservesFlow n M (pyDedup ss) (pyDedup tt)) := by
  constructor
  · rintro ⟨f, hok, _, _, _⟩
    unfold flowMk at hok
    split at hok
    case isTrue h1 => cases hok
    case isFalse h1 =>
      split at hok
      case isTrue h2 =>
        push_neg at h1
        refine ⟨?_, h2⟩
        intro x hx
        exact h1 x hx
      case isFalse h2 => cases hok
  · rintro ⟨hb, hc⟩
    refine ⟨⟨n, M, pyDedup ss, pyDedup tt⟩, ?_, rfl, rfl, rfl⟩
    have hno : ¬ ∃ x ∈ pyDedup ss ++ pyDedup tt, x < 0 ∨ (n : ℤ) ≤ x := by
      rintro ⟨x, hx, hor⟩
      obtain ⟨h1, h2⟩ := hb x hx
      omega
    unfold flowMk
    rw [if_neg hno, if_pos hc]

/-- Claim C2, counterexample to the claim as stated: the flow matrix
`[[0, 1000], [-999.995, 0]]` passes construction (thanks to the
relative tolerance of `np.allclose`) although
`|F[0][1] + F[1][0]| = 1/200` far exceeds the absolute tolerance
`1e-9`, so not every successfully constructed `Flow` is
skew-symmetric within `1e-9`. -/
theorem claim_C2_counterexample :
    (flowMk 2 (listToMat [[0, 1000], [-199999/200, 0]]) [0] [1]).map
      (fun f => f.flow_matrix 0 1 + f.flow_matrix 1 0) = .ok (1/200) ∧
    ¬ ((1/200 : ℚ) ≤ Flow.EPS) := by
  constructor
  · with_unfolding_all rfl
  · norm_num [Flow.EPS]

/-- Claim C3: for every well-formed `Network` with valid distinct
source and sink and every iteration budget, `edmonds_karp` either
returns a `Flow` after observing the sink unreachable in the final
residual network (BFS trace entry is `-1`), or fails with the
convergence error when the budget is exhausted; no other outcome is
possible. -/
theorem claim_C3 (net : Network) (hWF : NetworkWF net) (σ τ : ℕ)
    (hσ : σ < net.n_nodes) (hτ : τ < net.n_nodes) (hne : σ ≠ τ)
    (mi : ℕ) :
    (∃ f2, net.edmonds_karp (σ : ℤ) (τ : ℤ) mi = .ok f2 ∧
      bfsTraceRaw (residualMatrix net.adjacency_matrix net.n_nodes
        f2.flow_matrix) net.n_nodes σ τ < 0) ∨
    net.edmonds_karp (σ : ℤ) (τ : ℤ) mi =
      .error "Maximum iterations reached without convergence." := by
  rcases edmonds_karp_spec net hWF σ τ hσ hτ hne mi with
    ⟨f2, hok, _, _, _, _, hun⟩ | herr
  · exact Or.inl ⟨f2, hok, hun⟩
  · exact Or.inr herr

/-- Claim C3, witness: the dichotomy instantiated on the concrete
two-node network with source 0, sink 1 and the default budget. -/
theorem claim_C3_witness :
    (∃ f2, net3.edmonds_karp ((0 : ℕ) : ℤ) ((1 : ℕ) : ℤ) 1000 = .ok f2 ∧
      bfsTraceRaw (residualMatrix net3.adjacency_matrix net3.n_nodes
        f2.flow_matrix) net3.n_nodes 0 1 < 0) ∨
    net3.edmonds_karp ((0 : ℕ) : ℤ) ((1 : ℕ) : ℤ) 1000 =
      .error "Maximum iterations reached without convergence." :=
  claim_C3 net3 net3_wf 0 1 (by decide) (by decide) (by decide) 1000

/-- Claim C5 (amended): `send_flow_along` fails with the invalid-input
errors in both cases — a path of length `< 2` is rejected at entry
with the matrix unchanged, while an out-of-bounds node index is only
detected when its edge pair is processed, so updates already applied
to earlier pairs remain in the matrix (the checks are per-edge, not
eager at call entry). -/
theorem claim_C5 (f : Flow) (path : List ℤ) (amount : ℚ) :
    (path.length < 2 →
      f.send_flow_along path amount =
        .error ("Path must contain at least two nodes.", f.flow_matrix)) ∧
    (2 ≤ path.length → (∃ x ∈ path, x < 0 ∨ (f.n : ℤ) ≤ x) →
      ∃ M2, f.send_flow_along path amount =
        .error ("Path contains invalid node index.", M2)) := by
  constructor
  · intro hlen
    unfold Flow.send_flow_along
    rw [if_pos hlen]
  · rintro hlen ⟨x, hx, hor⟩
    obtain ⟨pr, hpr, hc⟩ := mem_pair_of_mem hx hlen
    have hex : ∃ q ∈ path.zip path.tail,
        q.1 < 0 ∨ q.2 < 0 ∨ (f.n : ℤ) ≤ q.1 ∨ (f.n : ℤ) ≤ q.2 := by
      refine ⟨pr, hpr, ?_⟩
      rcases hc with h | h <;> rw [h] <;> tauto
    obtain ⟨M2, hM2⟩ :=
      sendAux_err f.n amount (path.zip path.tail) f.flow_matrix hex
    refine ⟨M2, ?_⟩
    unfold Flow.send_flow_along
    rw [if_neg (by omega), hM2]

/-- Claim C5, counterexample to the claim as stated: on a two-node
zero flow, sending along `[0, 1, 5]` fails with the invalid-index
error, but the update for the earlier valid pair `(0, 1)` has already
been applied — the matrix after the failure has entry `(0,1)` equal to
`1`, not its original `0`, so the flow matrix is not left unchanged. -/
theorem claim_C5_counterexample :
    (⟨2, fun _ _ => 0, [], []⟩ : Flow).send_flow_along [0, 1, 5] 1 =
      .error ("Path contains invalid node index.",
        bump (fun _ _ => 0) 0 1 1) ∧
    bump (fun _ _ => 0) 0 1 1 0 1 = 1 ∧
    (fun (_ _ : ℕ) => (0 : ℚ)) 0 1 = 0 ∧ (1 : ℚ) ≠ 0 := by
  refine ⟨?_, ?_, rfl, by norm_num⟩
  · with_unfolding_all rfl
  · with_unfolding_all rfl

/-- Claim C5, witness: the amended statement applied to concrete
inputs — a one-node path is rejected at entry, and the path
`[0, 1, 5]` on a two-node flow contains an out-of-bounds index and
produces the invalid-index error. -/
theorem claim_C5_witness :
    (([0] : List ℤ).length < 2 ∧
      (⟨2, fun _ _ => 0, [], []⟩ : Flow).send_flow_along [0] 1 =
        .error ("Path must contain at least two nodes.",
          (⟨2, fun _ _ => 0, [], []⟩ : Flow).flow_matrix)) ∧
    (2 ≤ ([0, 1, 5] : List ℤ).length ∧
      (∃ x ∈ ([0, 1, 5] : List ℤ), x < 0 ∨ ((2 : ℕ) : ℤ) ≤ x) ∧
      ∃ M2, (⟨2, fun _ _ => 0, [], []⟩ : Flow).send_flow_along [0, 1, 5] 1 =
        .error ("Path contains invalid node index.", M2)) := by
  refine ⟨⟨by decide, (claim_C5 ⟨2, fun _ _ => 0, [], []⟩ [0] 1).1
      (by decide)⟩,
    by decide, ⟨5, by decide, by decide⟩,
    (claim_C5 ⟨2, fun _ _ => 0, [], []⟩ [0, 1, 5] 1).2 (by decide)
      ⟨5, by decide, by decide⟩⟩

/-- Claim C6 (amended): in every iteration of `edmonds_karp` the
residual matrix `A - F` is entrywise non-negative — negative residual
entries never occur, because the loop invariant keeps `F ≤ A`
entrywise — so building the residual `Network` always succeeds, and
every flow the method returns still satisfies the invariant.  The
mechanism the claim describes is wrong, however: a matrix containing a
negative entry is rejected by the `Network` constructor, not silently
tolerated as BFS-untraversable. -/
theorem claim_C6 (net : Network) (hWF : NetworkWF net) (σ τ : ℕ)
    (hσ : σ < net.n_nodes) (hτ : τ < net.n_nodes) (hne : σ ≠ τ)
    (mi : ℕ) :
    (∀ F : Mat, LoopInv net.adjacency_matrix net.n_nodes F →
      (∀ i j, 0 ≤ net.adjacency_matrix i j - F i j) ∧
      networkOfMatrix net.n_nodes
        (fun i j => net.adjacency_matrix i j - F i j) =
        .ok ⟨net.n_nodes,
          residualMatrix net.adjacency_matrix net.n_nodes F⟩) ∧
    (∀ f2, net.edmonds_karp (σ : ℤ) (τ : ℤ) mi = .ok f2 →
      LoopInv net.adjacency_matrix net.n_nodes f2.flow_matrix) ∧
    (∀ (n : ℕ) (M : Mat), (∃ i < n, ∃ j < n, M i j < 0) →
      networkOfMatrix n M =
        .error "Adjacency matrix must be non-negative.") := by
  refine ⟨?_, ?_, ?_⟩
  · intro F hinv
    exact ⟨fun i j => sub_nonneg.mpr (hinv.le_cap i j),
      networkOfMatrix_residual _ _ _ hinv.le_cap⟩
  · intro f2 h
    rcases edmonds_karp_spec net hWF σ τ hσ hτ hne mi with
      ⟨f2p, hok, _, _, _, hinv, _⟩ | herr
    · rw [hok] at h
      injection h with h
      rw [← h]
      exact hinv
    · rw [herr] at h
      cases h
  · intro n M ⟨i, hi, j, hj, hneg⟩
    unfold networkOfMatrix
    rw [if_neg (fun hall => absurd (hall i hi j hj) (not_le.mpr hneg))]

/-- Claim C6, counterexample to the claim as stated: a matrix with a
negative entry is not tolerated — `Network` construction (which is how
each iteration builds its residual network) fails outright. -/
theorem claim_C6_counterexample :
    listToMat [[0, -1], [0, 0]] 0 1 < 0 ∧
    networkOfMatrix 2 (listToMat [[0, -1], [0, 0]]) =
      .error "Adjacency matrix must be non-negative." := by
  constructor
  · with_unfolding_all decide
  · with_unfolding_all rfl

/-- Claim C6, witness: the amended statement instantiated on the
concrete two-node network and the zero flow matrix. -/
theorem claim_C6_witness :
    (∀ i j, 0 ≤ net3.adjacency_matrix i j - (fun _ _ => (0 : ℚ)) i j) ∧
    networkOfMatrix net3.n_nodes
      (fun i j => net3.adjacency_matrix i j - (fun _ _ => (0 : ℚ)) i j) =
      .ok ⟨net3.n_nodes,
        residualMatrix net3.adjacency_matrix net3.n_nodes
          (fun _ _ => 0)⟩ :=
  (claim_C6 net3 net3_wf 0 1 (by decide) (by decide) (by decide) 1000).1
    (fun _ _ => 0) (zero_loopInv _ _ net3_wf.2)

/-- Claim C7: `maximum_flow` fails whenever the deduplicated sources
and sinks intersect (the disjointness error) or, failing that, either
list is empty (the non-empty error); both cases map to the
`ConflictingTerminals` kind of the spec.  In particular `maximum_flow([0], [0])` fails
with the disjointness error regardless of the network. -/
theorem claim_C7 (net : Network) (sources sinks : List ℤ) (mi : ℕ) :
    ((∃ s ∈ pyDedup sources, s ∈ pyDedup sinks) →
      net.maximum_flow sources sinks mi =
        .error "Sources and sinks must be disjoint.") ∧
    ((¬ ∃ s ∈ pyDedup sources, s ∈ pyDedup sinks) →
      (pyDedup sources = [] ∨ pyDedup sinks = []) →
      net.maximum_flow sources sinks mi =
        .error "Provide at least one source and one sink.") ∧
    net.maximum_flow [0] [0] mi =
      .error "Sources and sinks must be disjoint." := by
  refine ⟨?_, ?_, ?_⟩
  · intro h
    unfold Network.maximum_flow
    rw [if_pos h]
  · intro h1 h2
    unfold Network.maximum_flow
    rw [if_neg h1, if_pos h2]
  · have h : ∃ s ∈ pyDedup [(0 : ℤ)], s ∈ pyDedup [(0 : ℤ)] := by
      rw [pyDedup_singleton]
      exact ⟨0, List.mem_singleton_self 0, List.mem_singleton_self 0⟩
    unfold Network.maximum_flow
    rw [if_pos h]

/-- Claim C7, witness: the validation instantiated on the concrete
two-node network. -/
theorem claim_C7_witness :
    net3.maximum_flow [0] [0] 1000 =
      .error "Sources and sinks must be disjoint." :=
  (claim_C7 net3 [0] [0] 1000).2.2

/-- Non-negativity of the `np.allclose` bound used by `__eq__`. -/
theorem atol_rtol_nonneg (x : ℚ) : 0 ≤ NP.ATOLDEF + NP.RTOL * |x| := by
  unfold NP.ATOLDEF NP.RTOL
  have h2 : 0 ≤ (1 : ℚ) / 100000 * |x| := by positivity
  linarith

/-- Claim C8: combining a well-formed `Network` with the all-zero
`Network` of the same node count succeeds and yields a `Network` with
the identical capacity matrix, which is also equal to the original
under the `__eq__` comparison (`np.allclose`). -/
theorem claim_C8 (net zn : Network) (hWF : NetworkWF net)
    (hz : networkOfMatrix net.n_nodes (fun _ _ => 0) = .ok zn) :
    ∃ net2, net.combine zn = .ok net2 ∧
      net2.n_nodes = net.n_nodes ∧
      net2.adjacency_matrix = net.adjacency_matrix ∧
      Network.allcloseEq net2 net := by
  unfold networkOfMatrix at hz
  rw [if_pos (fun i _ j _ => le_refl (0 : ℚ))] at hz
  injection hz with hz
  subst hz
  have hL : combineLarger net
      ⟨net.n_nodes, fun i j =>
        if i < net.n_nodes ∧ j < net.n_nodes ∧ i ≠ j then
          (fun _ _ => (0 : ℚ)) i j else 0⟩ =
      ⟨net.n_nodes, fun i j =>
        if i < net.n_nodes ∧ j < net.n_nodes ∧ i ≠ j then
          (fun _ _ => (0 : ℚ)) i j else 0⟩ := by
    unfold combineLarger
    rw [if_neg (lt_irrefl _)]
  have hS : combineSmaller net
      ⟨net.n_nodes, fun i j =>
        if i < net.n_nodes ∧ j < net.n_nodes ∧ i ≠ j then
          (fun _ _ => (0 : ℚ)) i j else 0⟩ = net := by
    unfold combineSmaller
    rw [if_neg (lt_irrefl _)]
  have hzero : ∀ i j, (if i < net.n_nodes ∧ j < net.n_nodes ∧ i ≠ j then
      (fun _ _ => (0 : ℚ)) i j else 0) = 0 := by
    intro i j
    split <;> rfl
  unfold Network.combine
  rw [hL, hS]
  unfold networkOfMatrix
  dsimp only
  rw [if_pos ?_]
  · refine ⟨_, rfl, rfl, ?_, ?_⟩
    · funext i j
      dsimp only
      by_cases hc : i < net.n_nodes ∧ j < net.n_nodes ∧ i ≠ j
      · rw [if_pos hc, hzero, if_pos ⟨hc.1, hc.2.1⟩, zero_add]
      · rw [if_neg hc]
        exact (hWF.1 i j hc).symm
    · intro i _ j _
      dsimp only
      by_cases hc : i < net.n_nodes ∧ j < net.n_nodes ∧ i ≠ j
      · rw [if_pos hc, hzero, if_pos ⟨hc.1, hc.2.1⟩, zero_add, sub_self,
          abs_zero]
        exact atol_rtol_nonneg _
      · rw [if_neg hc, hWF.1 i j hc, sub_zero, abs_zero]
        exact atol_rtol_nonneg 0
  · intro i _ j _
    rw [hzero, zero_add]
    split
    · exact hWF.2 i j
    · exact le_refl 0

/-- The zero-capacity two-node `Network` as the constructor builds it. -/
def zn3 : Network :=
  ⟨2, fun i j => if i < 2 ∧ j < 2 ∧ i ≠ j then (fun _ _ => (0 : ℚ)) i j
    else 0⟩

/-- Claim C8, witness: combining the concrete two-node network with
the zero network of the same size. -/
theorem claim_C8_witness :
    ∃ net2, net3.combine zn3 = .ok net2 ∧
      net2.n_nodes = net3.n_nodes ∧
      net2.adjacency_matrix = net3.adjacency_matrix ∧
      Network.allcloseEq net2 net3 :=
  claim_C8 net3 zn3 net3_wf rfl

/-- Non-negativity of the `np.allclose` bound used by flow checks. -/
theorem eps_rtol_nonneg (x : ℚ) : 0 ≤ Flow.EPS + NP.RTOL * |x| := by
  unfold Flow.EPS NP.RTOL
  have h2 : 0 ≤ (1 : ℚ) / 100000 * |x| := by positivity
  linarith

/-- Claim C9 (amended): every flow returned by `edmonds_karp` on a
well-formed network satisfies `F[i][j] <= A[i][j]` entrywise, so the
residual `A - F` stays entrywise non-negative; when the capacity
matrix is symmetric this gives `|F[i][j]| <= A[i][j]` entrywise and
`capacity_constraint` succeeds.  (For asymmetric capacity matrices the
two-sided bound of the original claim fails — see the
counterexample.) -/
theorem claim_C9 (net : Network) (hWF : NetworkWF net) (σ τ : ℕ)
    (hσ : σ < net.n_nodes) (hτ : τ < net.n_nodes) (hne : σ ≠ τ)
    (mi : ℕ) (f2 : Flow)
    (hok : net.edmonds_karp (σ : ℤ) (τ : ℤ) mi = .ok f2) :
    (∀ i j, f2.flow_matrix i j ≤ net.adjacency_matrix i j) ∧
    (∀ i j, 0 ≤ residualMatrix net.adjacency_matrix net.n_nodes
      f2.flow_matrix i j) ∧
    ((∀ i j, net.adjacency_matrix i j = net.adjacency_matrix j i) →
      (∀ i j, |f2.flow_matrix i j| ≤ net.adjacency_matrix i j) ∧
      net.capacity_constraint f2 = .ok true) := by
  rcases edmonds_karp_spec net hWF σ τ hσ hτ hne mi with
    ⟨f2p, hok2, hn, _, _, hinv, _⟩ | herr
  · rw [hok2] at hok
    injection hok with hok
    subst hok
    refine ⟨hinv.le_cap, ?_, ?_⟩
    · intro i j
      unfold residualMatrix
      split
      · exact sub_nonneg.mpr (hinv.le_cap i j)
      · exact le_refl 0
    · intro hsym
      have habs : ∀ i j, |f2p.flow_matrix i j| ≤ net.adjacency_matrix i j := by
        intro i j
        rw [abs_le]
        constructor
        · have h1 := hinv.skew j i
          have h2 := hinv.le_cap j i
          have h3 := hsym i j
          linarith
        · exact hinv.le_cap i j
      refine ⟨habs, ?_⟩
      have hskew2 : ∀ i < net.n_nodes, ∀ j < net.n_nodes,
          |f2p.flow_matrix i j + f2p.flow_matrix j i| ≤
            Flow.EPS + NP.RTOL * |f2p.flow_matrix j i| := by
        intro i _ j _
        rw [hinv.skew i j]
        rw [show f2p.flow_matrix i j + -f2p.flow_matrix i j = 0 by ring,
          abs_zero]
        exact eps_rtol_nonneg _
      have hnoex : ¬ ∃ i < net.n_nodes, ∃ j < net.n_nodes,
          Flow.EPS < |f2p.flow_matrix i j| - net.adjacency_matrix i j := by
        rintro ⟨i, _, j, _, hlt⟩
        have hij := habs i j
        have heps : (0 : ℚ) < Flow.EPS := by norm_num [Flow.EPS]
        linarith
      unfold Network.capacity_constraint
      rw [if_neg (fun hh => hh hn), if_neg (not_not_intro hskew2),
        if_neg hnoex]
  · rw [herr] at hok
    cases hok

/-- The asymmetric capacity matrix `[[0, 5], [0, 0]]` (the constructor
accepts asymmetric matrices) and its `Network`. -/
def mat5 : Mat := listToMat [[0, 5], [0, 0]]

def net5 : Network :=
  ⟨2, fun i j => if i < 2 ∧ j < 2 ∧ i ≠ j then mat5 i j else 0⟩

/-- Claim C9, counterexample to the claim as stated: on the network
built from the asymmetric matrix `[[0, 5], [0, 0]]`, `edmonds_karp`
returns the flow `[[0, 5], [-5, 0]]`, whose entry `(1, 0)` violates
`|F[1][0]| <= A[1][0] + eps` (`5 > 0 + 1e-9`), and
`capacity_constraint` rejects it. -/
theorem claim_C9_counterexample :
    networkOfMatrix 2 mat5 = .ok net5 ∧
    (net5.edmonds_karp 0 1 1000).map
      (fun f => decide (|f.flow_matrix 1 0| ≤
        net5.adjacency_matrix 1 0 + Flow.EPS)) = .ok false ∧
    (net5.edmonds_karp 0 1 1000).map
      (fun f => net5.capacity_constraint f) =
      .ok (.error "Flow exceeds edge capacity.") := by
  refine ⟨rfl, ?_, ?_⟩ <;> with_unfolding_all rfl

/-- Claim C9, witness: on the symmetric concrete network the returned
flow passes the capacity check with the two-sided bound. -/
theorem claim_C9_witness :
    ∃ f2, net3.edmonds_karp ((0 : ℕ) : ℤ) ((1 : ℕ) : ℤ) 1000 = .ok f2 ∧
      (∀ i j, |f2.flow_matrix i j| ≤ net3.adjacency_matrix i j) ∧
      net3.capacity_constraint f2 = .ok true := by
  have hsym : ∀ i j, net3.adjacency_matrix i j =
      net3.adjacency_matrix j i := by
    intro i j
    show (if i < 2 ∧ j < 2 ∧ i ≠ j then mat3 i j else 0) =
      (if j < 2 ∧ i < 2 ∧ j ≠ i then mat3 j i else 0)
    by_cases h : i < 2 ∧ j < 2 ∧ i ≠ j
    · obtain ⟨hi, hj, hij⟩ := h
      rw [if_pos ⟨hi, hj, hij⟩, if_pos ⟨hj, hi, Ne.symm hij⟩]
      interval_cases i <;> interval_cases j <;> with_unfolding_all rfl
    · rw [if_neg h, if_neg (fun hc => h ⟨hc.2.1, hc.1, Ne.symm hc.2.2⟩)]
  rcases edmonds_karp_spec net3 net3_wf 0 1 (by decide) (by decide)
      (by decide) 1000 with ⟨f2, hok, _⟩ | herr
  · have h := claim_C9 net3 net3_wf 0 1 (by decide) (by decide)
      (by decide) 1000 f2 hok
    exact ⟨f2, hok, (h.2.2 hsym).1, (h.2.2 hsym).2⟩
  · exfalso
    have hval : (net3.edmonds_karp ((0 : ℕ) : ℤ) ((1 : ℕ) : ℤ) 1000).map
        Flow.value = .ok 3 := by
      with_unfolding_all rfl
    rw [herr] at hval
    cases hval

/-- Claim C10: under the distinct-and-in-bounds precondition, the
module-level free function `edmonds_karp(G, s, t, mi)` and the method
`G.edmonds_karp(s, t, mi)` are equivalent: both raise in exactly the
same cases, and on success they return flows with equal flow matrices,
equal sources and equal sinks. -/
theorem claim_C10 (G : Network) (s t : ℤ) (mi : ℕ)
    (hs1 : 0 ≤ s) (hs2 : s < (G.n_nodes : ℤ)) (ht1 : 0 ≤ t)
    (ht2 : t < (G.n_nodes : ℤ)) (hst : s ≠ t) :
    (∃ f f2, edmonds_karp G s t mi = .ok f ∧
      G.edmonds_karp s t mi = .ok f2 ∧
      f.flow_matrix = f2.flow_matrix ∧ f.sources = f2.sources ∧
      f.sinks = f2.sinks) ∨
    ((∃ e1, edmonds_karp G s t mi = .error e1) ∧
     (∃ e2, G.edmonds_karp s t mi = .error e2)) := by
  rcases free_edmonds_karp_eq G s t mi ⟨hs1, hs2⟩ ⟨ht1, ht2⟩ hst with
    heq | ⟨h1, h2⟩
  · cases hm : G.edmonds_karp s t mi with
    | ok f =>
      refine Or.inl ⟨f, f, ?_, rfl, rfl, rfl, rfl⟩
      rw [heq, hm]
    | error e =>
      refine Or.inr ⟨⟨e, ?_⟩, ⟨e, rfl⟩⟩
      rw [heq, hm]
  · exact Or.inr ⟨⟨"", h1⟩, ⟨_, h2⟩⟩

/-- Claim C10, witness: the equivalence instantiated on the concrete
two-node network with source 0 and sink 1. -/
theorem claim_C10_witness :
    (∃ f f2, edmonds_karp net3 0 1 1000 = .ok f ∧
      net3.edmonds_karp 0 1 1000 = .ok f2 ∧
      f.flow_matrix = f2.flow_matrix ∧ f.sources = f2.sources ∧
      f.sinks = f2.sinks) ∨
    ((∃ e1, edmonds_karp net3 0 1 1000 = .error e1) ∧
     (∃ e2, net3.edmonds_karp 0 1 1000 = .error e2)) :=
  claim_C10 net3 0 1 1000 (by decide) (by decide) (by decide) (by decide)
    (by decide)

/-- Claim C4 (amended): for non-empty supply/demand mappings with
non-negative values and valid node indices, `sufficient_flow` fails
fast with the insufficient-supply error (before building the
expansion) whenever total supply plus the tolerance is below total
demand; and when the pre-checks pass but the Edmonds-Karp search on
the expansion converges to a flow whose value is still short of total
demand beyond the tolerance, it fails with the unsatisfied-demand
error instead of returning the partial flow.  On the `[[0,3],[3,0]]`
network, `sufficient_flow({0: 2}, {1: 2})` succeeds with value 2 and
`sufficient_flow({0: 1}, {1: 2})` fails with the insufficient-supply
error.  (Both error messages map to `InfeasibleDemand` in the spec; an
empty mapping or a negative value is rejected earlier with a
different error, which is what forces the non-empty/non-negative
qualification — see the counterexample.) -/
theorem claim_C4 :
    (∀ (net : Network) (supply demand : List (ℤ × ℚ)) (mi : ℕ),
      supply ≠ [] → demand ≠ [] →
      (∀ p ∈ supply, 0 ≤ p.2) → (∀ p ∈ demand, 0 ≤ p.2) →
      (supply.map Prod.snd).sum + Flow.EPS < (demand.map Prod.snd).sum →
      net.sufficient_flow supply demand mi =
        .error "Insufficient total supply to meet demand.") ∧
    (∀ (net : Network) (supply demand : List (ℤ × ℚ)) (mi : ℕ)
        (en : Network) (ef : Flow),
      supply ≠ [] → demand ≠ [] →
      (∀ p ∈ supply, 0 ≤ p.2) → (∀ p ∈ demand, 0 ≤ p.2) →
      ¬ ((supply.map Prod.snd).sum + Flow.EPS <
          (demand.map Prod.snd).sum) →
      (∀ p ∈ supply, 0 ≤ p.1 ∧ p.1 < (net.n_nodes : ℤ)) →
      (∀ p ∈ demand, 0 ≤ p.1 ∧ p.1 < (net.n_nodes : ℤ)) →
      networkOfMatrix (net.n_nodes + 2)
        (expandedMatrixSF net supply demand) = .ok en →
      en.edmonds_karp (net.n_nodes : ℤ) ((net.n_nodes : ℤ) + 1) mi =
        .ok ef →
      ef.value + Flow.EPS < (demand.map Prod.snd).sum →
      net.sufficient_flow supply demand mi =
        .error "Could not satisfy all demand.") ∧
    (net3.sufficient_flow [(0, 2)] [(1, 2)] 1000).map Flow.value =
      .ok 2 ∧
    net3.sufficient_flow [(0, 1)] [(1, 2)] 1000 =
      .error "Insufficient total supply to meet demand." := by
  refine ⟨?_, ?_, ?_, ?_⟩
  · intro net supply demand mi h1 h2 hnn1 hnn2 hlt
    unfold Network.sufficient_flow
    rw [if_neg (fun hor => hor.elim (fun hh => h1 hh) (fun hh => h2 hh)),
      if_neg ?_, if_pos hlt]
    rintro (⟨p, hp, hv⟩ | ⟨p, hp, hv⟩)
    · exact absurd hv (not_lt.mpr (hnn1 p hp))
    · exact absurd hv (not_lt.mpr (hnn2 p hp))
  · intro net supply demand mi en ef h1 h2 hnn1 hnn2 hge hb1 hb2 hen hek
      hshort
    unfold Network.sufficient_flow
    rw [if_neg (fun hor => hor.elim (fun hh => h1 hh) (fun hh => h2 hh)),
      if_neg ?_, if_neg hge, if_neg ?_, if_neg ?_]
    · split
      next e heq =>
        rw [hen] at heq
        cases heq
      next en2 heq =>
        rw [hen] at heq
        injection heq with heq
        subst heq
        split
        next e heq2 =>
          rw [hek] at heq2
          cases heq2
        next ef2 heq2 =>
          rw [hek] at heq2
          injection heq2 with heq2
          subst heq2
          rw [if_pos hshort]
    · rintro ⟨p, hp, hor⟩
      have hb := hb2 p hp
      omega
    · rintro ⟨p, hp, hor⟩
      have hb := hb1 p hp
      omega
    · rintro (⟨p, hp, hv⟩ | ⟨p, hp, hv⟩)
      · exact absurd hv (not_lt.mpr (hnn1 p hp))
      · exact absurd hv (not_lt.mpr (hnn2 p hp))
  · with_unfolding_all rfl
  · with_unfolding_all rfl

/-- Claim C4, counterexample to the claim as stated: with the empty
supply mapping (total supply 0, below demand 2 minus tolerance) the
code raises the must-be-provided error, and with a negative supply
value (total supply -1) it raises the non-negativity error — in both
cases before and instead of the claimed `InfeasibleDemand`
(insufficient-supply) error. -/
theorem claim_C4_counterexample :
    ((0 : ℚ) + Flow.EPS < 2 ∧
      net3.sufficient_flow [] [(1, 2)] 1000 =
        .error "Sources and sinks must be provided." ∧
      ("Sources and sinks must be provided." : String) ≠
        "Insufficient total supply to meet demand.") ∧
    ((-1 : ℚ) + Flow.EPS < 2 ∧
      net3.sufficient_flow [(0, -1)] [(1, 2)] 1000 =
        .error "Supplies and demands must be non-negative." ∧
      ("Supplies and demands must be non-negative." : String) ≠
        "Insufficient total supply to meet demand.") := by
  refine ⟨⟨by norm_num [Flow.EPS], rfl, by decide⟩,
    by norm_num [Flow.EPS], ?_, by decide⟩
  with_unfolding_all rfl

/-- Claim C4, witness: the fail-fast branch applied to the concrete
network with supply `{0: 1}` and demand `{1: 2}`. -/
theorem claim_C4_witness :
    (([((0 : ℤ), (1 : ℚ))] : List (ℤ × ℚ)) ≠ [] ∧
     ([((1 : ℤ), (2 : ℚ))] : List (ℤ × ℚ)) ≠ [] ∧
     (([((0 : ℤ), (1 : ℚ))] : List (ℤ × ℚ)).map Prod.snd).sum + Flow.EPS <
       (([((1 : ℤ), (2 : ℚ))] : List (ℤ × ℚ)).map Prod.snd).sum) ∧
    net3.sufficient_flow [(0, 1)] [(1, 2)] 1000 =
      .error "Insufficient total supply to meet demand." := by
  have hlt : (([((0 : ℤ), (1 : ℚ))] : List (ℤ × ℚ)).map Prod.snd).sum +
      Flow.EPS < (([((1 : ℤ), (2 : ℚ))] : List (ℤ × ℚ)).map Prod.snd).sum := by
    simp [Flow.EPS]
    norm_num
  refine ⟨⟨by simp, by simp, hlt⟩, ?_⟩
  exact claim_C4.1 net3 [(0, 1)] [(1, 2)] 1000 (by simp) (by simp)
    (by intro p hp; simp at hp; rw [hp]; norm_num)
    (by intro p hp; simp at hp; rw [hp]; norm_num) hlt

end TubePlanning
